import Mathlib

/-!
# A verification model of the dfm synchronization engine

This file gives a shallow embedding of the core of dfm (a dotfiles
manager written in Go) and proves properties of its synchronization /
reconciliation engine.

Modelling conventions, used throughout:

* Filesystem paths are modelled as lists of components (`Path`), so the
  Go string `/home/test/.bashrc` becomes `["home", "test", ".bashrc"]`.
  Go's `path.Join`/`pathJoin` on a root and a relative path becomes list
  append, `path.Dir` becomes `List.dropLast`, and the string tests
  `len(p) > len(root) && p[:len(root)] == root` become length comparison
  plus `List.isPrefixOf`.  All absolute paths are lists rooted at `/`, so
  `filepath.Abs` is the identity on them.
* The filesystem is an association list from paths to nodes
  (`Fs`), with OS (`afero.OsFs`) semantics for the primitives in
  `util.go`: symlinks are their own node kind, `os.Symlink` fails when
  the destination exists, `os.Remove` fails on missing paths and
  non-empty directories, `MkdirAll` creates every missing ancestor and
  fails when a non-directory is in the way.
* Effects are made explicit: every primitive returns the new filesystem
  plus a trace of the filesystem calls it performed (`Action`), so that
  "calls no mutating primitive" is a statement about the trace.
* Go errors become the inductive `GoErr`, mirroring `errors.go`:
  the `ErrNotNeeded` and `Retry` sentinels, `*os.PathError`-style errors
  (with not-exist errors distinguished, since the code tests
  `os.IsNotExist`), plain `fmt.Errorf` errors, and `*FileError` with its
  optional wrapped cause.
* The unbounded retry loop of `processWithRetry` is embedded with
  explicit fuel; running out of fuel yields `none`.  Statefulness of the
  injected closures (`handleFile`, the `ErrorHandler`) is modelled by
  passing an invocation / consultation counter explicitly.
-/

namespace Dfm

/-- A filesystem path, as its list of components. -/
abbrev Path := List String

/-- Strict lexicographic order on character lists (Go compares strings
bytewise; on our data this is the same order), written so that it is
kernel-computable. -/
def charListLt : List Char → List Char → Bool
  | [], [] => false
  | [], _ :: _ => true
  | _ :: _, [] => false
  | c :: cs, d :: ds => if c = d then charListLt cs ds else decide (c.toNat < d.toNat)

/-- Strict order on strings by their characters. -/
def strLt (a b : String) : Bool := charListLt a.data b.data

/-- Total order on paths used to model `sort.Strings` / lexical walk
order: componentwise lexicographic order on the component lists. -/
def pathLe : Path → Path → Bool
  | [], _ => true
  | _ :: _, [] => false
  | a :: as, b :: bs => if a = b then pathLe as bs else strLt a b

/-- Insert a path into a sorted list (`sortPaths` helper). -/
def insertSorted (p : Path) : List Path → List Path
  | [] => [p]
  | q :: rest => if pathLe p q then p :: q :: rest else q :: insertSorted p rest

/-- Insertion sort by `pathLe`, modelling `sort.Strings` and the lexical
order of `filepath.Walk`.  (Insertion sort keeps every definition
kernel-computable.) -/
def sortPaths : List Path → List Path
  | [] => []
  | p :: rest => insertSorted p (sortPaths rest)

/-- Decidable equality for `Except` results. -/
instance {ε α : Type} [DecidableEq ε] [DecidableEq α] :
    DecidableEq (Except ε α) := fun a b =>
  match a, b with
  | .ok x, .ok y =>
    if h : x = y then isTrue (by rw [h])
    else isFalse (fun hc => by cases hc; exact h rfl)
  | .error x, .error y =>
    if h : x = y then isTrue (by rw [h])
    else isFalse (fun hc => by cases hc; exact h rfl)
  | .ok _, .error _ => isFalse (fun hc => by cases hc)
  | .error _, .ok _ => isFalse (fun hc => by cases hc)

/-- A filesystem node: a regular file with contents, a symbolic link to
a path, or a directory. -/
inductive Node where
  | regular (content : String)
  | symlink (target : Path)
  | dir
  deriving DecidableEq, Repr

/-- The filesystem: an association list from paths to nodes. -/
abbrev Fs := List (Path × Node)

/-- Association-list lookup of a path's node. -/
def lookupNode : Fs → Path → Option Node
  | [], _ => none
  | (q, n) :: rest, p => if q = p then some n else lookupNode rest p

/-- Bind a path to a node, replacing an existing binding in place or
appending a new one. -/
def setEntry : Fs → Path → Node → Fs
  | [], p, n => [(p, n)]
  | (q, m) :: rest, p, n =>
    if q = p then (q, n) :: rest else (q, m) :: setEntry rest p n

/-- Delete every binding of the given path. -/
def eraseEntry (fs : Fs) (p : Path) : Fs :=
  fs.filter (fun en => ¬ en.1 = p)

/-- Immediate children of a directory: bound paths exactly one component
longer that extend it. -/
def children (fs : Fs) (p : Path) : List Path :=
  (fs.map Prod.fst).filter (fun q => q.length = p.length + 1 && p.isPrefixOf q)

/-- Whether the path is bound to a directory node ("" is the root
directory and always exists). -/
def dirExists (fs : Fs) (p : Path) : Bool :=
  p = [] ||
    match lookupNode fs p with
    | some .dir => true
    | _ => false

/-- Non-`FileError` Go errors: the `ErrNotNeeded` and `Retry` sentinels
of errors.go, `*os.PathError`s for which `os.IsNotExist` is true
(`notExist`), other `*os.PathError`s (`pathErr`), and plain `fmt.Errorf`
errors.  (`WrapFileError` never nests a `*FileError` inside another, so
a `FileError` cause is always one of these.) -/
inductive BaseErr where
  | notNeeded
  | retry
  | notExist (op : String) (path : Path)
  | pathErr (op : String) (path : Path) (msg : String)
  | errorf (msg : String)
  deriving DecidableEq, Repr

/-- A Go `error` value as the engine sees it: either one of the base
errors, or a `*FileError` (errors.go) with message, filename and
optional wrapped cause. -/
inductive GoErr where
  | base (e : BaseErr)
  | fileErr (message : String) (filename : Path) (cause : Option BaseErr)
  deriving DecidableEq, Repr

/-- `IsNotNeeded` from errors.go: the error is `ErrNotNeeded`, or is a
`*FileError` whose cause is `ErrNotNeeded`. -/
def isNotNeeded : GoErr → Bool
  | .base .notNeeded => true
  | .fileErr _ _ (some .notNeeded) => true
  | _ => false

/-- `os.IsNotExist` on our error model. -/
def isNotExistErr : GoErr → Bool
  | .base (.notExist _ _) => true
  | _ => false

/-- The human message of a base error (`Error()` on the Go side, or the
inner message for a `*os.PathError`), used when wrapping. -/
def errMessage : BaseErr → String
  | .notNeeded => "already up to date"
  | .retry => "retry this file"
  | .notExist _ _ => "file does not exist"
  | .pathErr _ _ msg => msg
  | .errorf msg => msg

/-- `WrapFileError` from errors.go: an existing `*FileError` is returned
as is; otherwise a new `*FileError` is built from the error's message
(the inner message, for `*os.PathError`s) with the original error kept
as cause. -/
def wrapFileError (cause : GoErr) (filename : Path) : GoErr :=
  match cause with
  | .fileErr message f c => .fileErr message f c
  | .base b => .fileErr (errMessage b) filename (some b)

/-- A filesystem call, recorded in traces.  The first five are probes
(read-only decision checks); the last four are the mutating
primitives (create symlink, copy bytes, remove, create directories). -/
inductive Action where
  | lstat (p : Path)
  | readlink (p : Path)
  | stat (p : Path)
  | readDir (p : Path)
  | walk (p : Path)
  | symlink (source dest : Path)
  | copy (source dest : Path)
  | remove (p : Path)
  | mkdirAll (p : Path)
  deriving DecidableEq, Repr

/-- Whether an action is one of the mutating filesystem primitives. -/
def Action.isMutating : Action → Bool
  | .symlink _ _ => true
  | .copy _ _ => true
  | .remove _ => true
  | .mkdirAll _ => true
  | _ => false

/-! ## Filesystem primitives (util.go), with OS semantics and traces -/

/-- `IsLinkedFile` (util.go, OsFs branch): lstat the destination; a
missing path or a non-symlink is `false`; otherwise readlink and compare
with the source. -/
def isLinkedFile (fs : Fs) (source dest : Path) : List Action × Bool :=
  match lookupNode fs dest with
  | some (.symlink t) => ([.lstat dest, .readlink dest], t = source)
  | _ => ([.lstat dest], false)

/-- `LinkFile` (util.go): create a symlink at `dest` pointing at
`source`; `os.Symlink` fails if `dest` already exists or its parent
directory is missing. -/
def linkFile (fs : Fs) (source dest : Path) : List Action × Except GoErr Fs :=
  ([.symlink source dest],
    if (lookupNode fs dest).isSome then
      .error (.base (.pathErr "symlink" dest "file exists"))
    else if dirExists fs dest.dropLast then
      .ok (setEntry fs dest (.symlink source))
    else
      .error (.base (.notExist "symlink" dest)))

/-- `CopyFile` (util.go): stat the destination first and fail if it
exists; then copy the bytes of the source file. -/
def copyFile (fs : Fs) (source dest : Path) : List Action × Except GoErr Fs :=
  if (lookupNode fs dest).isSome then
    ([.stat dest], .error (.base (.pathErr "copy" dest "file exists")))
  else
    match lookupNode fs source with
    | some (.regular c) =>
        if dirExists fs dest.dropLast then
          ([.stat dest, .copy source dest], .ok (setEntry fs dest (.regular c)))
        else
          ([.stat dest, .copy source dest], .error (.base (.notExist "copy" dest)))
    | _ => ([.stat dest, .copy source dest], .error (.base (.notExist "copy" source)))

/-- `os.Remove` / `fs.Remove`: fails on a missing path or a non-empty
directory, otherwise deletes the binding. -/
def fsRemove (fs : Fs) (p : Path) : List Action × Except GoErr Fs :=
  ([.remove p],
    match lookupNode fs p with
    | none => .error (.base (.notExist "remove" p))
    | some .dir =>
        if children fs p = [] then .ok (eraseEntry fs p)
        else .error (.base (.pathErr "remove" p "directory not empty"))
    | some _ => .ok (eraseEntry fs p))

/-- `afero.ReadDir`: fails on a missing path or a non-directory,
otherwise lists the immediate children. -/
def fsReadDir (fs : Fs) (p : Path) : List Action × Except GoErr (List Path) :=
  ([.readDir p],
    match lookupNode fs p with
    | none => .error (.base (.notExist "open" p))
    | some .dir => .ok (children fs p)
    | some _ => .error (.base (.pathErr "readdirent" p "not a directory")))

/-- Helper for `MkdirAll`: walk down the component chain, creating each
missing directory, failing if a non-directory is in the way.  `pre` is
the already-validated prefix. -/
def mkdirChain (fs : Fs) (pre : Path) : Path → Except GoErr Fs
  | [] => .ok fs
  | c :: rest =>
    match lookupNode fs (pre ++ [c]) with
    | some .dir => mkdirChain fs (pre ++ [c]) rest
    | some _ => .error (.base (.pathErr "mkdir" (pre ++ [c]) "not a directory"))
    | none => mkdirChain (setEntry fs (pre ++ [c]) .dir) (pre ++ [c]) rest

/-- `fs.MkdirAll`: create all directories on the way to `p`. -/
def mkdirAll (fs : Fs) (p : Path) : List Action × Except GoErr Fs :=
  ([.mkdirAll p], mkdirChain fs [] p)

/-- `MakeDirAll` (util.go): make sure all directories in
`dest/relative` exist (the `source` argument is unused by the code). -/
def MakeDirAll (fs : Fs) (relative _source dest : Path) :
    List Action × Except GoErr Fs :=
  mkdirAll fs (dest ++ relative)

/-- The loop body of `CleanDirectories`, recursing on the length of the
directory path (each iteration drops the last component, so the path
length bounds the iteration count exactly). -/
def cleanDirectoriesAux : Nat → Fs → Path → Path →
    Fs × List Action × Option GoErr
  | 0, fs, _, _ => (fs, [], none)
  | n + 1, fs, emptyDir, root =>
    if root.length < emptyDir.length ∧ root.isPrefixOf emptyDir then
      match fsReadDir fs emptyDir with
      | (acts, .error e) => (fs, acts, some e)
      | (acts, .ok entries) =>
        if 0 < entries.length then (fs, acts, none)
        else
          match fsRemove fs emptyDir with
          | (acts₂, .error e) => (fs, acts ++ acts₂, some e)
          | (acts₂, .ok fs₁) =>
            match cleanDirectoriesAux n fs₁ emptyDir.dropLast root with
            | (fs₂, acts₃, err) => (fs₂, acts ++ acts₂ ++ acts₃, err)
    else (fs, [], none)

/-- `CleanDirectories` (util.go): remove all empty directories walking
upward from `emptyDir`, stopping once the loop leaves the subtree
strictly below `root`, at the first non-empty directory, or at the
first error. -/
def cleanDirectories (fs : Fs) (emptyDir root : Path) :
    Fs × List Action × Option GoErr :=
  cleanDirectoriesAux emptyDir.length fs emptyDir root

/-! ## Ordered map (`ordered_map.OrderedMap` with `Path` keys) -/

/-- The insertion-ordered map `relative path -> repo name` built during
resolution.  `Set` updates an existing key in place (keeping its
insertion position) or appends a new one. -/
abbrev OrderedMap := List (Path × String)

/-- `OrderedMap.Set`. -/
def omSet : OrderedMap → Path → String → OrderedMap
  | [], k, v => [(k, v)]
  | (k', v') :: rest, k, v =>
    if k' = k then (k', v) :: rest else (k', v') :: omSet rest k v

/-- `OrderedMap.Get`. -/
def omLookup : OrderedMap → Path → Option String
  | [], _ => none
  | (k', v') :: rest, k => if k' = k then some v' else omLookup rest k

/-! ## Walking and resolution (dfm.go: populateFileList, buildFileList) -/

/-- The regular (non-directory) entries of the filesystem under `q`
(including `q` itself when it is not a directory), in walk order. -/
def walkUnder (fs : Fs) (q : Path) : List Path :=
  sortPaths ((fs.map Prod.fst).filter
    (fun p => q.isPrefixOf p && !(lookupNode fs p = some .dir)))

/-- `populateFileList` (util.go): walk `root/filename` (failing with a
not-exist error when it is absent), adding each non-directory path found
to the map, keyed by its path relative to `root`, with the given value.
`filename = []` (Go: `"."`) scans the entire root. -/
def populateFileList (fs : Fs) (root filename : Path) (fileList : OrderedMap)
    (value : String) : Except GoErr OrderedMap :=
  match lookupNode fs (root ++ filename) with
  | none => .error (.base (.notExist "open" (root ++ filename)))
  | some _ =>
    .ok ((walkUnder fs (root ++ filename)).foldl
      (fun om p => omSet om (p.drop root.length) value) fileList)

/-- The relative paths a repo-tree walk of `root` yields. -/
def walkRel (fs : Fs) (root : Path) : List Path :=
  (walkUnder fs root).map (fun p => p.drop root.length)

/-! ## The engine configuration (Config.go, in-memory form) -/

/-- The in-memory `Config` of Config.go: the dfm directory, the target
directory, the ordered active repo list, and the manifest.  The Go
`map[string]bool` manifest is modelled as a list of paths with set
semantics (no duplicates are ever inserted). -/
structure Config where
  path : Path
  targetPath : Path
  repos : List String
  manifest : List Path
  deriving DecidableEq, Repr

/-- `RepoPath`: the path to a file inside a repo
(`pathJoin(config.path, repo, relative)`). -/
def RepoPath (cfg : Config) (repo : String) (relative : Path) : Path :=
  cfg.path ++ [repo] ++ relative

/-- `TargetPath`: the path to a file inside the target
(`pathJoin(config.targetPath, relative)`). -/
def TargetPath (cfg : Config) (relative : Path) : Path :=
  cfg.targetPath ++ relative

/-- Add a path to a manifest (`manifest[path] = true`): a set insert. -/
def insertSet (m : List Path) (p : Path) : List Path :=
  if p ∈ m then m else m ++ [p]

/-- Whether a full walk of the given active repo produces the relative
path `rel`: the repo root exists and `rel` is among the walked files. -/
def repoContainsRel (fs : Fs) (cfg : Config) (repo : String) (rel : Path) :
    Bool :=
  (lookupNode fs (RepoPath cfg repo [])).isSome &&
    decide (rel ∈ walkRel fs (RepoPath cfg repo []))

/-- Inner loop of `buildFileList` (dfm.go): try one input path against
every active repo in order, accumulating the map and whether the path
was found anywhere; a not-exist error from a repo is skipped, any other
error aborts. -/
def populateRepos (fs : Fs) (cfg : Config) (p : Path) :
    List String → OrderedMap → Bool → Except GoErr (OrderedMap × Bool)
  | [], om, found => .ok (om, found)
  | repo :: rest, om, found =>
    match populateFileList fs (RepoPath cfg repo []) p om repo with
    | .ok om' => populateRepos fs cfg p rest om' true
    | .error e =>
      if isNotExistErr e then populateRepos fs cfg p rest om found
      else .error e

/-- `buildFileList` (dfm.go): scan the given paths in each repo,
returning an ordered map `relative -> repo` in which later repos
override earlier ones; a path found in no active repo is an error. -/
def buildFileList (fs : Fs) (cfg : Config) :
    List Path → OrderedMap → Except GoErr OrderedMap
  | [], om => .ok om
  | p :: rest, om =>
    match populateRepos fs cfg p cfg.repos om false with
    | .error e => .error e
    | .ok (om', found) =>
      if found then buildFileList fs cfg rest om'
      else .error (.fileErr "not found in any active repositories" p none)

/-! ## The error policy engine (errors.go: processWithRetry) -/

/-- The result of one invocation of a per-file operation: the new
filesystem, the filesystem calls performed, and the Go error returned
(`none` = success). -/
structure StepResult where
  fs : Fs
  acts : List Action
  err : Option GoErr
  deriving DecidableEq, Repr

/-- The outcome of `processWithRetry`: its `(skipped, aborted, reason)`
results, plus instrumentation counting how many times the operation was
invoked and the handler consulted. -/
structure RetryOutcome where
  skipped : Bool
  aborted : Bool
  reason : Option GoErr
  calls : Nat
  consults : Nat
  deriving DecidableEq, Repr

/-- An `ErrorHandler` (errors.go): consulted with the `*FileError`;
returns accept (`none`), the `Retry` sentinel, or an escalated error.
The extra `Nat` argument is the number of previous consultations for
this file, making closure state explicit. -/
abbrev Handler := Nat → GoErr → Option GoErr

/-- A per-file operation as `processWithRetry` sees it: given the
invocation index (making closure state explicit) and the current
filesystem, perform the operation. -/
abbrev ProcessFun := Nat → Fs → StepResult

/-- `processWithRetry` (errors.go): call the operation; on success
return; on an `ErrNotNeeded`-caused error return skipped; otherwise
consult the handler: `nil` downgrades to a skip with the original error
kept as reason, `Retry` re-invokes the operation from scratch, anything
else aborts with the handler's error.  The Go loop is unbounded, so it
is embedded with fuel; `none` means the fuel ran out. -/
def processWithRetry (errorHandler : Handler) (process : ProcessFun) :
    Nat → Nat → Nat → Fs → List Action →
    Option (Fs × List Action × RetryOutcome)
  | 0, _, _, _, _ => none
  | fuel + 1, calls, consults, fs, acts =>
    match process calls fs with
    | ⟨fs₁, acts₁, none⟩ =>
      some (fs₁, acts ++ acts₁, ⟨false, false, none, calls + 1, consults⟩)
    | ⟨fs₁, acts₁, some rawErr⟩ =>
      if isNotNeeded rawErr then
        some (fs₁, acts ++ acts₁, ⟨true, false, some rawErr, calls + 1, consults⟩)
      else
        match errorHandler consults rawErr with
        | none =>
          some (fs₁, acts ++ acts₁,
            ⟨true, false, some rawErr, calls + 1, consults + 1⟩)
        | some newErr =>
          if newErr = .base .retry then
            processWithRetry errorHandler process fuel (calls + 1) (consults + 1)
              fs₁ (acts ++ acts₁)
          else
            some (fs₁, acts ++ acts₁,
              ⟨false, true, some newErr, calls + 1, consults + 1⟩)

/-! ## The sync executor (dfm.go: syncFiles, autoclean, runSync, ...) -/

/-- The operation name constants of dfm.go. -/
def OperationAdd : String := "added"

/-- `OperationLink`. -/
def OperationLink : String := "linked"

/-- `OperationCopy`. -/
def OperationCopy : String := "copied"

/-- `OperationRemove`. -/
def OperationRemove : String := "removed"

/-- `OperationSkip`. -/
def OperationSkip : String := "skipped"

/-- One call of the logging sink: `dfm.log(operation, relative, repo,
reason)`. -/
structure LogEntry where
  operation : String
  relative : Path
  repo : String
  reason : Option GoErr
  deriving DecidableEq, Repr

/-- An injected per-file operation (`handleFile(s, d) error` in Go):
given the invocation index (making closure state explicit), the current
filesystem and the source and destination paths, do the work. -/
abbrev HandleFile := Nat → Fs → Path → Path → StepResult

/-- The process closure that `syncFiles` hands to `processWithRetry`
for one file: run `handleFile` and wrap any error as a `*FileError` for
the relative path. -/
def syncProcess (handleFile : HandleFile) (repoPath targetPath relative : Path) :
    ProcessFun := fun i fs =>
  let r := handleFile i fs repoPath targetPath
  ⟨r.fs, r.acts, r.err.map (fun rawErr => wrapFileError rawErr relative)⟩

/-- What one `syncFiles` pass produced: the filesystem, the candidate
next manifest, the traces, the log, the relative paths whose operation
was attempted, and the overall error (`some` exactly when the pass
aborted). -/
structure SyncResult where
  fs : Fs
  nextManifest : List Path
  acts : List Action
  log : List LogEntry
  attempted : List Path
  overallErr : Option GoErr
  deriving DecidableEq, Repr

/-- `syncFiles` (dfm.go): for each resolved `relative -> repo` pair in
order, record the path into the candidate manifest first, then run the
per-file operation through `processWithRetry`; an abort stops the loop
immediately (without logging the aborting file); otherwise log the
operation, downgraded to `OperationSkip` when skipped. -/
def syncFiles (cfg : Config) (fuel : Nat) (errorHandler : Handler)
    (operation : String) (handleFile : HandleFile) :
    List (Path × String) → List Path → Fs → Option SyncResult
  | [], nextManifest, fs => some ⟨fs, nextManifest, [], [], [], none⟩
  | (relative, repo) :: rest, nextManifest, fs =>
    let nextManifest' := insertSet nextManifest relative
    let repoPath := RepoPath cfg repo relative
    let targetPath := TargetPath cfg relative
    match processWithRetry errorHandler
        (syncProcess handleFile repoPath targetPath relative) fuel 0 0 fs [] with
    | none => none
    | some (fs', acts, out) =>
      if out.aborted then
        some ⟨fs', nextManifest', acts, [], [relative], out.reason⟩
      else
        let fileOperation := if out.skipped then OperationSkip else operation
        let entry : LogEntry := ⟨fileOperation, relative, repo, out.reason⟩
        match syncFiles cfg fuel errorHandler operation handleFile rest
            nextManifest' fs' with
        | none => none
        | some res =>
          some ⟨res.fs, res.nextManifest, acts ++ res.acts, entry :: res.log,
            relative :: res.attempted, res.overallErr⟩

/-- What `autoclean` produced: the filesystem, the updated manifest, the
traces and the log. -/
structure CleanResult where
  fs : Fs
  manifest : List Path
  acts : List Action
  log : List LogEntry
  deriving DecidableEq, Repr

/-- The body of `autoclean`'s removal loop for one file: remove the
target file and, on success, clean now-empty parent directories; in
dry-run mode do neither.  Returns the new filesystem, the trace, and
the error recorded for the log. -/
def autocleanRemove (targetPath : Path) (dryRun : Bool) (fs : Fs) (f : Path) :
    Fs × List Action × Option GoErr :=
  if dryRun then (fs, [], none)
  else
    match fsRemove fs (targetPath ++ f) with
    | (acts₁, .error e) => (fs, acts₁, some e)
    | (acts₁, .ok fs₁) =>
      match cleanDirectories fs₁ (targetPath ++ f).dropLast targetPath with
      | (fs₂, acts₂, err) => (fs₂, acts₁ ++ acts₂, err)

/-- The sorted list of orphaned paths: tracked in the manifest but not
produced by the current pass (`toRemove` in autoclean). -/
def orphanedPaths (manifest next : List Path) : List Path :=
  sortPaths (manifest.filter (fun p => ¬ p ∈ next))

/-- Drop a path from the manifest (`delete(manifest, filename)`). -/
def eraseManifest (manifest : List Path) (f : Path) : List Path :=
  manifest.filter (fun p => ¬ p = f)

/-- The removal loop of `autoclean`: process each orphaned path in
order, logging each attempt and dropping the path from the manifest
exactly when no error occurred; a failure on one path does not stop the
loop. -/
def autocleanLoop (targetPath : Path) (dryRun : Bool) :
    List Path → Fs → List Path → Fs × List Path × List Action × List LogEntry
  | [], fs, manifest => (fs, manifest, [], [])
  | f :: rest, fs, manifest =>
    match autocleanRemove targetPath dryRun fs f with
    | (fs₁, acts₁, err) =>
      let entry : LogEntry := ⟨OperationRemove, f, "", err⟩
      let manifest₁ :=
        if err = none then eraseManifest manifest f else manifest
      match autocleanLoop targetPath dryRun rest fs₁ manifest₁ with
      | (fs₂, manifest₂, acts₂, log₂) =>
        (fs₂, manifest₂, acts₁ ++ acts₂, entry :: log₂)

/-- `autoclean` (dfm.go): remove from the target every manifest path not
in `nextManifest` (in sorted order), logging each removal and dropping
it from the manifest only when removal (including the directory
cleanup) succeeded; finally add every `nextManifest` path to the
manifest. -/
def autoclean (cfg : Config) (dryRun : Bool) (fs : Fs)
    (nextManifest : List Path) : CleanResult :=
  match autocleanLoop cfg.targetPath dryRun
      (orphanedPaths cfg.manifest nextManifest) fs cfg.manifest with
  | (fs', manifest', acts, log) =>
    (⟨fs', nextManifest.foldl insertSet manifest', acts, log⟩ : CleanResult)

/-- `handleLink` (dfm.go): skip when the destination is already a link
to the source; in dry-run mode stop after that probe; otherwise create
the missing directories and the symlink. -/
def handleLink (cfg : Config) (dryRun : Bool) (fs : Fs) (s d : Path) :
    StepResult :=
  match isLinkedFile fs s d with
  | (acts₁, done) =>
    if done then ⟨fs, acts₁, some (.base .notNeeded)⟩
    else if dryRun then ⟨fs, acts₁, none⟩
    else
      let relativePath := d.drop cfg.targetPath.length
      let repoPath := s.take (s.length - relativePath.length)
      match MakeDirAll fs relativePath.dropLast repoPath cfg.targetPath with
      | (acts₂, .error e) => ⟨fs, acts₁ ++ acts₂, some e⟩
      | (acts₂, .ok fs₁) =>
        match linkFile fs₁ s d with
        | (acts₃, .error e) => ⟨fs₁, acts₁ ++ acts₂ ++ acts₃, some e⟩
        | (acts₃, .ok fs₂) => ⟨fs₂, acts₁ ++ acts₂ ++ acts₃, none⟩

/-- `handleCopy` (dfm.go): in dry-run mode do nothing at all; otherwise
replace a link to the source by a real copy, creating missing
directories first.  There is no already-up-to-date check (the code
carries an `XXX - check if file is identical` comment). -/
def handleCopy (cfg : Config) (dryRun : Bool) (fs : Fs) (s d : Path) :
    StepResult :=
  if dryRun then ⟨fs, [], none⟩
  else
    match isLinkedFile fs s d with
    | (acts₁, isLinked) =>
      let removeStep : Fs × List Action × Option GoErr :=
        if isLinked then
          match fsRemove fs d with
          | (acts₂, .error e) => (fs, acts₂, some e)
          | (acts₂, .ok fs₁) => (fs₁, acts₂, none)
        else (fs, [], none)
      match removeStep with
      | (_, acts₂, some e) => ⟨fs, acts₁ ++ acts₂, some e⟩
      | (fs₁, acts₂, none) =>
        let relativePath := d.drop cfg.targetPath.length
        let repoPath := s.take (s.length - relativePath.length)
        match MakeDirAll fs₁ relativePath.dropLast repoPath cfg.targetPath with
        | (acts₃, .error e) => ⟨fs₁, acts₁ ++ acts₂ ++ acts₃, some e⟩
        | (acts₃, .ok fs₂) =>
          match copyFile fs₂ s d with
          | (acts₄, .error e) => ⟨fs₂, acts₁ ++ acts₂ ++ acts₃ ++ acts₄, some e⟩
          | (acts₄, .ok fs₃) => ⟨fs₃, acts₁ ++ acts₂ ++ acts₃ ++ acts₄, none⟩

/-- What a whole pass produced: the updated configuration, the
filesystem, the traces, the log, the attempted relative paths, the
returned error, and whether the configuration was persisted. -/
structure RunResult where
  cfg : Config
  fs : Fs
  acts : List Action
  log : List LogEntry
  attempted : List Path
  err : Option GoErr
  saved : Bool
  deriving DecidableEq, Repr

/-- `runSync` (dfm.go): resolve the whole tree, sync it into a fresh
candidate manifest, then on success autoclean; on an aborted pass merge
the old manifest into the candidate instead (never losing a tracked
file) and skip the autoclean; finally persist the configuration unless
in dry-run mode (`saveConfig`). -/
def runSync (cfg : Config) (dryRun : Bool) (fuel : Nat)
    (errorHandler : Handler) (operation : String) (handleFile : HandleFile)
    (fs : Fs) : Option RunResult :=
  match buildFileList fs cfg [([] : Path)] [] with
  | .error e => some ⟨cfg, fs, [], [], [], some e, false⟩
  | .ok fileList =>
    match syncFiles cfg fuel errorHandler operation handleFile fileList [] fs with
    | none => none
    | some res =>
      if res.overallErr.isSome then
        let merged := cfg.manifest.foldl insertSet res.nextManifest
        some ⟨{ cfg with manifest := merged }, res.fs, res.acts, res.log,
          res.attempted, res.overallErr, !dryRun⟩
      else
        match autoclean cfg dryRun res.fs res.nextManifest with
        | c =>
          some ⟨{ cfg with manifest := c.manifest }, c.fs, res.acts ++ c.acts,
            res.log ++ c.log, res.attempted, none, !dryRun⟩

/-- `runPartialSync` (dfm.go): resolve only the named input paths; sync
them directly into the live manifest (no autoclean); persist unless in
dry-run mode. -/
def runPartialSync (cfg : Config) (dryRun : Bool) (fuel : Nat)
    (errorHandler : Handler) (operation : String) (handleFile : HandleFile)
    (inputFilenames : List Path) (fs : Fs) : Option RunResult :=
  match buildFileList fs cfg inputFilenames [] with
  | .error e => some ⟨cfg, fs, [], [], [], some e, false⟩
  | .ok fileList =>
    match syncFiles cfg fuel errorHandler operation handleFile fileList
        cfg.manifest fs with
    | none => none
    | some res =>
      some ⟨{ cfg with manifest := res.nextManifest }, res.fs, res.acts,
        res.log, res.attempted, res.overallErr, !dryRun⟩

/-- `LinkAll` (dfm.go): a full sync in link mode. -/
def LinkAll (cfg : Config) (dryRun : Bool) (fuel : Nat)
    (errorHandler : Handler) (fs : Fs) : Option RunResult :=
  runSync cfg dryRun fuel errorHandler OperationLink
    (fun _ fsNow s d => handleLink cfg dryRun fsNow s d) fs

/-- `CopyAll` (dfm.go): a full sync in copy mode. -/
def CopyAll (cfg : Config) (dryRun : Bool) (fuel : Nat)
    (errorHandler : Handler) (fs : Fs) : Option RunResult :=
  runSync cfg dryRun fuel errorHandler OperationCopy
    (fun _ fsNow s d => handleCopy cfg dryRun fsNow s d) fs

/-- `EjectFiles` (dfm.go): resolve the named paths, copy them into the
target (syncing into the live manifest), then delete every resolved
path from the manifest — regardless of how its copy went — and persist
unless in dry-run mode. -/
def EjectFiles (cfg : Config) (dryRun : Bool) (fuel : Nat)
    (errorHandler : Handler) (inputFilenames : List Path) (fs : Fs) :
    Option RunResult :=
  match buildFileList fs cfg inputFilenames [] with
  | .error e => some ⟨cfg, fs, [], [], [], some e, false⟩
  | .ok fileList =>
    match syncFiles cfg fuel errorHandler OperationCopy
        (fun _ fsNow s d => handleCopy cfg dryRun fsNow s d) fileList
        cfg.manifest fs with
    | none => none
    | some res =>
      let manifest' := fileList.foldl
        (fun m kv => m.filter (fun p => ¬ p = kv.1)) res.nextManifest
      some ⟨{ cfg with manifest := manifest' }, res.fs, res.acts, res.log,
        res.attempted, res.overallErr, !dryRun⟩

/-! ## The manifest store (Config.go: configFile, Save, SetDirectory)

The TOML layer is plumbing; the persisted document is modelled as the
`configFile` struct it (un)marshals.  `filepath.Abs` is the identity on
our already-absolute component-list paths.  A missing `.dfm.toml` is
modelled as `none`; an absent TOML field is `none` inside the document
(Go: a nil slice / empty string). -/

/-- The persisted document (`configFile` in Config.go): ordered repo
name list, target path, manifest path list.  `none` models a Go nil
slice (field absent); the empty target string is the empty path. -/
structure ConfigFile where
  repos : Option (List String)
  target : Path
  manifest : Option (List Path)
  deriving DecidableEq, Repr

/-- `configToManifest`: build the manifest set from the persisted list
(`map[string]bool` becomes a duplicate-free list). -/
def configToManifest (config : List Path) : List Path :=
  config.foldl insertSet []

/-- `defaultConfig` (Config.go): empty repo list, the invoking user's
home directory as target, empty manifest. -/
def defaultConfigFile (home : Path) : ConfigFile :=
  ⟨some [], home, some []⟩

/-- `Config.applyFile` (Config.go): apply every field of the document
that is set (`Repos != nil`, `Target != ""`, `Manifest != nil`). -/
def applyFile (cfg : Config) (file : ConfigFile) : Config :=
  { cfg with
    repos :=
      match file.repos with
      | some r => r
      | none => cfg.repos
    targetPath := if file.target ≠ [] then file.target else cfg.targetPath
    manifest :=
      match file.manifest with
      | some m => configToManifest m
      | none => cfg.manifest }

/-- `Config.Save` (Config.go): serialize repos, target and manifest back
into the document.  `manifestOrder` is the iteration order in which Go
enumerates the manifest map — an arbitrary permutation of the manifest,
supplied explicitly because Go map iteration order is unspecified. -/
def configSave (cfg : Config) (manifestOrder : List Path) : ConfigFile :=
  ⟨some cfg.repos, cfg.targetPath, some manifestOrder⟩

/-- `Config.SetDirectory` (Config.go): reset to the defaults, remember
the directory, fail if the directory does not exist, then apply the
persisted document when there is one (a missing `.dfm.toml` is an empty
config).  `dirOk` models the `fs.Stat(dir)` probe. -/
def setDirectory (home dir : Path) (dirOk : Bool) (doc : Option ConfigFile) :
    Except GoErr Config :=
  let c0 := applyFile ⟨[], [], [], []⟩ (defaultConfigFile home)
  let c1 := { c0 with path := dir }
  if !dirOk then .error (.base (.notExist "stat" dir))
  else
    .ok
      (match doc with
      | none => c1
      | some file => applyFile c1 file)

/-! ## Spec-side definitions for the autoclean refinement

These two definitions are written from the words of the specification
("remove the corresponding target file, then walk upward from its
parent directory, removing each now-empty directory until reaching (but
not deleting) the target root"), for comparison against the
implementation-side `autoclean`/`CleanDirectories`. -/

/-- The body of the spec's walk, on the same fuel as
`cleanDirectoriesAux`. -/
def emptyAncestorChainAux : Nat → Fs → Path → Path → List Path
  | 0, _, _, _ => []
  | n + 1, fs, d, root =>
    if root.length < d.length ∧ root.isPrefixOf d then
      match lookupNode fs d with
      | some .dir =>
        if children fs d = [] then
          d :: emptyAncestorChainAux n (eraseEntry fs d) d.dropLast root
        else []
      | _ => []
    else []

/-- The chain of ancestor directories, starting at `d` and walking
upward strictly below `root`, that are empty when reached (each one
emptied by removing the previous); written from the spec's words. -/
def emptyAncestorChain (fs : Fs) (d root : Path) : List Path :=
  emptyAncestorChainAux d.length fs d root

/-- The spec's effect of autocleaning one orphaned path: remove the
target file if possible (an impossible removal leaves the filesystem
alone), then erase its chain of now-empty ancestor directories. -/
def specRemoveOne (root : Path) (fs : Fs) (f : Path) : Fs :=
  match fsRemove fs (root ++ f) with
  | (_, .error _) => fs
  | (_, .ok fs₁) =>
    (emptyAncestorChain fs₁ (root ++ f).dropLast root).foldl eraseEntry fs₁

/-- The spec's effect of a whole autoclean pass on the filesystem. -/
def autocleanSpecFs (root : Path) (fs : Fs) (toRemove : List Path) : Fs :=
  toRemove.foldl (specRemoveOne root) fs

/-! ## Concrete fixtures

Handlers mirroring the code, and small concrete machines used by the
witnesses and counterexamples below.  The layout follows the Go test
suite: the dfm directory is `/home/test/dotfiles` and the target is
`/home/test`. -/

/-- `noErrorHandler` (dfm.go): escalate every failure. -/
def noErrorHandler : Handler := fun _ err => some err

/-- The CLI's default error handler without `--force` (main.go): record
the failure and continue, i.e. suppress every error. -/
def acceptHandler : Handler := fun _ _ => none

/-- Fixture: a dfm directory with one active repo `files` holding
`.fileA` and `.fileC`, and an empty target. -/
def exFs : Fs :=
  [(["home"], .dir), (["home", "test"], .dir),
   (["home", "test", "dotfiles"], .dir),
   (["home", "test", "dotfiles", "files"], .dir),
   (["home", "test", "dotfiles", "files", ".fileA"], .regular "# config file"),
   (["home", "test", "dotfiles", "files", ".fileC"], .regular "# config file")]

/-- Fixture: the configuration matching `exFs`, with an empty
manifest. -/
def exCfg : Config :=
  ⟨["home", "test", "dotfiles"], ["home", "test"], ["files"], []⟩

/-- Fixture: two overlapping repos `one` and `two` (`repositories.sh`
from the test suite): `.bashrc` exists in both. -/
def exFsTwo : Fs :=
  [(["home"], .dir), (["home", "test"], .dir),
   (["home", "test", "dotfiles"], .dir),
   (["home", "test", "dotfiles", "one"], .dir),
   (["home", "test", "dotfiles", "one", ".bashrc"], .regular "one"),
   (["home", "test", "dotfiles", "one", ".vimrc"], .regular "one"),
   (["home", "test", "dotfiles", "two"], .dir),
   (["home", "test", "dotfiles", "two", ".bashrc"], .regular "two"),
   (["home", "test", "dotfiles", "two", ".zshrc"], .regular "two")]

/-- Fixture: the configuration activating repos `one` then `two`. -/
def exCfgTwo : Config :=
  ⟨["home", "test", "dotfiles"], ["home", "test"], ["one", "two"], []⟩

/-- Fixture: the repo files of `exFs` already present in the target as
plain regular files (so a copy onto them fails with "file exists"). -/
def exFsEject : Fs :=
  exFs ++ [(["home", "test", ".fileA"], .regular "old"),
    (["home", "test", ".fileC"], .regular "old")]

/-- Fixture: `exCfg` tracking both files in its manifest. -/
def exCfgEject : Config :=
  ⟨["home", "test", "dotfiles"], ["home", "test"], ["files"],
    [[".fileA"], [".fileC"]]⟩

/-- Fixture: a single repo file `.fileA` already linked into the
target, with the manifest tracking it (the state right after a
successful link sync). -/
def exFsLinked : Fs :=
  [(["home"], .dir), (["home", "test"], .dir),
   (["home", "test", "dotfiles"], .dir),
   (["home", "test", "dotfiles", "files"], .dir),
   (["home", "test", "dotfiles", "files", ".fileA"], .regular "# config file"),
   (["home", "test", ".fileA"],
     .symlink ["home", "test", "dotfiles", "files", ".fileA"])]

/-- Fixture: the configuration matching `exFsLinked`. -/
def exCfgA : Config :=
  ⟨["home", "test", "dotfiles"], ["home", "test"], ["files"], [[".fileA"]]⟩

/-- The result of ejecting both files of `exFsEject` under the
escalating handler: the copy of `.fileA` fails with "file exists" and
aborts the pass, `.fileC` is never attempted, yet both paths are
deleted from the manifest. -/
def exEjectResult : RunResult :=
  ⟨⟨["home", "test", "dotfiles"], ["home", "test"], ["files"], []⟩,
    exFsEject,
    [.lstat ["home", "test", ".fileA"], .mkdirAll ["home", "test"],
      .stat ["home", "test", ".fileA"]],
    [], [[".fileA"]],
    some (.fileErr "file exists" [".fileA"]
      (some (.pathErr "copy" ["home", "test", ".fileA"] "file exists"))),
    true⟩

/-- Fixture: `exCfg` with `.fileA` and `.fileC` already tracked (the
pre-pass manifest of the partial-failure scenario). -/
def exCfgABC : Config :=
  ⟨["home", "test", "dotfiles"], ["home", "test"], ["files"],
    [[".fileA"], [".fileC"]]⟩

/-- Fixture: the repo additionally holds `.fileB`. -/
def exFsABC : Fs :=
  exFs ++ [(["home", "test", "dotfiles", "files", ".fileB"], .regular "x")]

/-- Fixture: a per-file operation that fails on `.fileB` with a fake
error and otherwise links (the `TestSyncErrorPartial` scenario). -/
def exHfB : HandleFile := fun _ fsNow s d =>
  if d = ["home", "test", ".fileB"] then
    ⟨fsNow, [], some (.base (.errorf "fake error"))⟩
  else handleLink exCfgABC false fsNow s d

/-- The sync state after processing just `.fileA` in the
partial-failure scenario: linked, logged, recorded in the candidate
manifest. -/
def exRes0 : SyncResult :=
  ⟨[(["home"], .dir), (["home", "test"], .dir),
    (["home", "test", "dotfiles"], .dir),
    (["home", "test", "dotfiles", "files"], .dir),
    (["home", "test", "dotfiles", "files", ".fileA"], .regular "# config file"),
    (["home", "test", "dotfiles", "files", ".fileC"], .regular "# config file"),
    (["home", "test", "dotfiles", "files", ".fileB"], .regular "x"),
    (["home", "test", ".fileA"],
      .symlink ["home", "test", "dotfiles", "files", ".fileA"])],
   [[".fileA"]],
   [.lstat ["home", "test", ".fileA"], .mkdirAll ["home", "test"],
     .symlink ["home", "test", "dotfiles", "files", ".fileA"]
       ["home", "test", ".fileA"]],
   [⟨OperationLink, [".fileA"], "files", none⟩],
   [[".fileA"]], none⟩

/-- Fixture: a manifest tracking `.config/fileA` (linked, inside a
directory that will become empty) and `.gone` (no longer on disk, so its
removal will fail). -/
def exCfgClean : Config :=
  ⟨["home", "test", "dotfiles"], ["home", "test"], ["files"],
    [[".config", "fileA"], [".gone"]]⟩

/-- Fixture: the filesystem matching `exCfgClean`; the repo now only
holds `.fileB`. -/
def exFsClean : Fs :=
  [(["home"], .dir), (["home", "test"], .dir),
   (["home", "test", ".config"], .dir),
   (["home", "test", ".config", "fileA"],
     .symlink ["home", "test", "dotfiles", "files", ".config", "fileA"]),
   (["home", "test", "dotfiles"], .dir),
   (["home", "test", "dotfiles", "files"], .dir),
   (["home", "test", "dotfiles", "files", ".fileB"], .regular "x")]

/-- The result of that autoclean: `.config/fileA` removed together with
its emptied `.config` directory, `.gone`'s removal failed so it stays
tracked. -/
def exCleanResult : CleanResult :=
  ⟨[(["home"], .dir), (["home", "test"], .dir),
    (["home", "test", "dotfiles"], .dir),
    (["home", "test", "dotfiles", "files"], .dir),
    (["home", "test", "dotfiles", "files", ".fileB"], .regular "x")],
   [[".gone"], [".fileB"]],
   [.remove ["home", "test", ".config", "fileA"],
    .readDir ["home", "test", ".config"],
    .remove ["home", "test", ".config"],
    .remove ["home", "test", ".gone"]],
   [⟨OperationRemove, [".config", "fileA"], "", none⟩,
    ⟨OperationRemove, [".gone"], "",
      some (.base (.notExist "remove" ["home", "test", ".gone"]))⟩]⟩

/-- The per-file operation `LinkAll` injects into `runSync` (named form
of the closure `dfm.handleLink`). -/
def linkHandleFile (cfg : Config) (dryRun : Bool) : HandleFile :=
  fun _ fsNow s d => handleLink cfg dryRun fsNow s d

/-- Whether a path is comparable with the target root: inside the
target subtree, or an ancestor of the target root (every filesystem key
a full link sync can touch is of this form). -/
def inTargetZone (tgt p : Path) : Bool :=
  tgt.isPrefixOf p || p.isPrefixOf tgt

/-- The entries of the filesystem whose keys are not comparable with
the target root (in particular, the dfm directory's subtree when the
dfm directory and the target are not nested in each other). -/
def offZone (tgt : Path) (fs : Fs) : Fs :=
  fs.filter (fun en => !inTargetZone tgt en.1)

/-- The result of the first link pass over `exFs` (the standard nested
layout, dfm directory inside the target): both files linked, logged and
tracked. -/
def exR1 : RunResult :=
  ⟨⟨["home", "test", "dotfiles"], ["home", "test"], ["files"],
    [[".fileA"], [".fileC"]]⟩,
   [(["home"], .dir), (["home", "test"], .dir),
    (["home", "test", "dotfiles"], .dir),
    (["home", "test", "dotfiles", "files"], .dir),
    (["home", "test", "dotfiles", "files", ".fileA"],
      .regular "# config file"),
    (["home", "test", "dotfiles", "files", ".fileC"],
      .regular "# config file"),
    (["home", "test", ".fileA"],
      .symlink ["home", "test", "dotfiles", "files", ".fileA"]),
    (["home", "test", ".fileC"],
      .symlink ["home", "test", "dotfiles", "files", ".fileC"])],
   [.lstat ["home", "test", ".fileA"], .mkdirAll ["home", "test"],
    .symlink ["home", "test", "dotfiles", "files", ".fileA"]
      ["home", "test", ".fileA"],
    .lstat ["home", "test", ".fileC"], .mkdirAll ["home", "test"],
    .symlink ["home", "test", "dotfiles", "files", ".fileC"]
      ["home", "test", ".fileC"]],
   [⟨OperationLink, [".fileA"], "files", none⟩,
    ⟨OperationLink, [".fileC"], "files", none⟩],
   [[".fileA"], [".fileC"]], none, true⟩

/-! # Theorems

First general-purpose lemmas about the embedded definitions, then one
theorem per claim (with witnesses for theorems that carry hypotheses,
and counterexamples for the claims the code falsifies). -/

/-- Membership in `insertSet`. -/
theorem mem_insertSet (m : List Path) (a p : Path) :
    p ∈ insertSet m a ↔ p ∈ m ∨ p = a := by
  unfold insertSet
  by_cases h : a ∈ m
  · simp only [if_pos h]
    constructor
    · exact Or.inl
    · rintro (hp | rfl)
      · exact hp
      · exact h
  · simp [if_neg h]

/-- Membership in a fold of `insertSet`s. -/
theorem mem_foldl_insertSet (l : List Path) (m : List Path) (p : Path) :
    p ∈ l.foldl insertSet m ↔ p ∈ m ∨ p ∈ l := by
  induction l generalizing m with
  | nil => simp
  | cons a l ih =>
    simp only [List.foldl_cons, ih, mem_insertSet, List.mem_cons]
    tauto

/-- Membership in `configToManifest` is membership in the persisted
list. -/
theorem mem_configToManifest (l : List Path) (p : Path) :
    p ∈ configToManifest l ↔ p ∈ l := by
  unfold configToManifest
  rw [mem_foldl_insertSet]
  simp

/-- C7: saving an in-memory configuration and re-loading the resulting
document from the same directory reproduces an equal target path, an
equal ordered repo list, and an equal manifest as a set (the persisted
manifest order — Go map iteration — may be any permutation). -/
theorem config_save_setDirectory_roundTrip (home dir : Path) (cfg : Config)
    (manifestOrder : List Path) (hperm : manifestOrder.Perm cfg.manifest)
    (htgt : cfg.targetPath ≠ []) :
    ∃ cfg',
      setDirectory home dir true (some (configSave cfg manifestOrder)) =
        .ok cfg' ∧
      cfg'.targetPath = cfg.targetPath ∧
      cfg'.repos = cfg.repos ∧
      ∀ p : Path, p ∈ cfg'.manifest ↔ p ∈ cfg.manifest := by
  refine ⟨_, rfl, ?_, ?_, ?_⟩
  · simp [setDirectory, applyFile, configSave, defaultConfigFile, htgt]
  · simp [setDirectory, applyFile, configSave, defaultConfigFile]
  · intro p
    simp only [setDirectory, applyFile, configSave, defaultConfigFile]
    rw [mem_configToManifest]
    exact hperm.mem_iff

/-- Witness for C7 at a concrete configuration whose persisted manifest
order differs from the in-memory order. -/
theorem config_save_setDirectory_roundTrip_witness :
    ∃ cfg',
      setDirectory ["home", "test"] ["home", "test", "dotfiles"] true
          (some (configSave
            ⟨["home", "test", "dotfiles"], ["home", "test"], ["files"],
              [[".bashrc"], [".vimrc"]]⟩
            [[".vimrc"], [".bashrc"]])) =
        .ok cfg' ∧
      cfg'.targetPath = ["home", "test"] ∧
      cfg'.repos = ["files"] ∧
      ∀ p : Path,
        p ∈ cfg'.manifest ↔ p ∈ ([[".bashrc"], [".vimrc"]] : List Path) := by
  exact config_save_setDirectory_roundTrip ["home", "test"]
    ["home", "test", "dotfiles"]
    ⟨["home", "test", "dotfiles"], ["home", "test"], ["files"],
      [[".bashrc"], [".vimrc"]]⟩
    [[".vimrc"], [".bashrc"]] (by decide) (by decide)

/-- C6: if the wrapped operation fails once, the handler answers `Retry`
on its first consultation, and the re-invoked operation succeeds, then
the operation was invoked exactly twice, the handler consulted exactly
once, and the overall outcome is a success (neither skipped nor
aborted). -/
theorem processWithRetry_retry_once_success (errorHandler : Handler)
    (process : ProcessFun) (fs : Fs) (e : GoErr) (r0 r1 : StepResult)
    (h0 : process 0 fs = r0) (he0 : r0.err = some e)
    (hnn : isNotNeeded e = false)
    (hh : errorHandler 0 e = some (.base .retry))
    (h1 : process 1 r0.fs = r1) (he1 : r1.err = none) :
    processWithRetry errorHandler process 2 0 0 fs [] =
      some (r1.fs, r0.acts ++ r1.acts,
        ⟨false, false, none, 2, 1⟩) := by
  obtain ⟨fs0, acts0, err0⟩ := r0
  obtain ⟨fs1, acts1, err1⟩ := r1
  dsimp only at he0 he1 h1 ⊢
  subst he0
  subst he1
  simp [processWithRetry, h0, hnn, hh, h1]

/-- Witness for C6: a concrete operation that fails once with a
temporary error and succeeds on the second invocation, under a handler
that asks for a retry on its first consultation. -/
theorem processWithRetry_retry_once_success_witness :
    processWithRetry
      (fun n _ => if n = 0 then some (.base .retry) else none)
      (fun i fsNow =>
        if i = 0 then ⟨fsNow, [], some (.base (.errorf "temporary error"))⟩
        else ⟨fsNow, [], none⟩)
      2 0 0 exFs [] =
      some (exFs, [], ⟨false, false, none, 2, 1⟩) := by
  have h := processWithRetry_retry_once_success
    (fun n _ => if n = 0 then some (.base .retry) else none)
    (fun i fsNow =>
      if i = 0 then ⟨fsNow, [], some (.base (.errorf "temporary error"))⟩
      else ⟨fsNow, [], none⟩)
    exFs (.base (.errorf "temporary error"))
    ⟨exFs, [], some (.base (.errorf "temporary error"))⟩ ⟨exFs, [], none⟩
    rfl rfl (by decide) rfl rfl rfl
  simpa using h

/-- Looking up the key just set. -/
theorem omLookup_omSet_self (om : OrderedMap) (k : Path) (v : String) :
    omLookup (omSet om k v) k = some v := by
  induction om with
  | nil => simp [omSet, omLookup]
  | cons kv rest ih =>
    obtain ⟨k₀, v₀⟩ := kv
    simp only [omSet]
    by_cases h : k₀ = k
    · rw [if_pos h]
      simp only [omLookup]
      rw [if_pos h]
    · rw [if_neg h]
      simp only [omLookup]
      rw [if_neg h, ih]

/-- Setting one key leaves the others unchanged. -/
theorem omLookup_omSet_ne (om : OrderedMap) (k k' : Path) (v : String)
    (h : k' ≠ k) : omLookup (omSet om k v) k' = omLookup om k' := by
  have hne : k ≠ k' := fun hc => h hc.symm
  induction om with
  | nil =>
    simp only [omSet, omLookup]
    rw [if_neg hne]
  | cons kv rest ih =>
    obtain ⟨k₀, v₀⟩ := kv
    simp only [omSet]
    by_cases h₀ : k₀ = k
    · rw [if_pos h₀]
      simp only [omLookup]
      subst h₀
      rw [if_neg hne, if_neg hne]
    · rw [if_neg h₀]
      simp only [omLookup]
      by_cases h₁ : k₀ = k'
      · rw [if_pos h₁, if_pos h₁]
      · rw [if_neg h₁, if_neg h₁, ih]

/-- Lookup after setting a batch of keys to one value. -/
theorem omLookup_foldl_omSet (files : List Path) (g : Path → Path)
    (v : String) (om : OrderedMap) (k : Path) :
    omLookup (files.foldl (fun acc p => omSet acc (g p) v) om) k =
      if k ∈ files.map g then some v else omLookup om k := by
  induction files generalizing om with
  | nil => simp
  | cons p rest ih =>
    simp only [List.foldl_cons, List.map_cons, List.mem_cons]
    rw [ih]
    by_cases hrest : k ∈ rest.map g
    · simp [hrest]
    · by_cases hp : k = g p
      · simp [hrest, hp, omLookup_omSet_self]
      · simp [hrest, hp, omLookup_omSet_ne _ _ _ _ hp]

/-- Lookup after one `populateFileList` (walking one repo for one input
path). -/
theorem omLookup_populateFileList (fs : Fs) (root filename : Path)
    (om om' : OrderedMap) (value : String) (k : Path)
    (h : populateFileList fs root filename om value = .ok om') :
    omLookup om' k =
      if k ∈ (walkUnder fs (root ++ filename)).map
          (fun p => p.drop root.length) then
        some value
      else omLookup om k := by
  unfold populateFileList at h
  cases hl : lookupNode fs (root ++ filename) with
  | none => rw [hl] at h; exact Except.noConfusion h
  | some n =>
    rw [hl] at h
    injection h with h'
    rw [← h']
    exact omLookup_foldl_omSet _ _ _ _ _

/-- Helper: `getLast?` of a cons. -/
theorem getLast_cons_getD (a : α) (l : List α) :
    (a :: l).getLast? = some (l.getLast?.getD a) := by
  induction l generalizing a with
  | nil => rfl
  | cons b m ih => rw [List.getLast?_cons_cons, ih b, Option.getD_some]

/-- Lookup after `populateRepos` for a full scan (input path `[]`): the
value is the last active repo whose walk contains the key, when one
exists. -/
theorem omLookup_populateRepos (fs : Fs) (cfg : Config)
    (repos : List String) (om om' : OrderedMap) (found found' : Bool)
    (k : Path)
    (h : populateRepos fs cfg [] repos om found = .ok (om', found')) :
    omLookup om' k =
      match (repos.filter
          (fun r => repoContainsRel fs cfg r k)).getLast? with
      | some r => some r
      | none => omLookup om k := by
  induction repos generalizing om found with
  | nil =>
    unfold populateRepos at h
    injection h with h'
    injection h' with h₁ h₂
    simp [← h₁]
  | cons r rest ih =>
    unfold populateRepos at h
    cases hpf : populateFileList fs (RepoPath cfg r []) [] om r with
    | error e =>
      rw [hpf] at h
      unfold populateFileList at hpf
      cases hl : lookupNode fs (RepoPath cfg r [] ++ []) with
      | some n => rw [hl] at hpf; exact Except.noConfusion hpf
      | none =>
        rw [hl] at hpf
        injection hpf with he
        have hnc : repoContainsRel fs cfg r k = false := by
          unfold repoContainsRel
          rw [show RepoPath cfg r [] = RepoPath cfg r [] ++ [] from by simp,
            hl]
          rfl
        rw [← he] at h
        simp only [isNotExistErr, if_pos] at h
        rw [ih _ _ h]
        simp [List.filter_cons, hnc]
    | ok om₁ =>
      rw [hpf] at h
      have h' : populateRepos fs cfg [] rest om₁ true = .ok (om', found') := h
      have hsome : (lookupNode fs (RepoPath cfg r [])).isSome = true := by
        unfold populateFileList at hpf
        cases hl : lookupNode fs (RepoPath cfg r [] ++ []) with
        | none => rw [hl] at hpf; exact Except.noConfusion hpf
        | some n =>
          rw [show RepoPath cfg r [] = RepoPath cfg r [] ++ [] from by simp,
            hl]
          rfl
      have hlook := omLookup_populateFileList fs (RepoPath cfg r []) [] om
        om₁ r k hpf
      rw [List.append_nil] at hlook
      have hlook' : omLookup om₁ k =
          if k ∈ walkRel fs (RepoPath cfg r []) then some r
          else omLookup om k := hlook
      rw [ih _ _ h']
      by_cases hmem : k ∈ walkRel fs (RepoPath cfg r [])
      · have hc : repoContainsRel fs cfg r k = true := by
          unfold repoContainsRel
          simp [hsome, hmem]
        simp only [List.filter_cons, hc, if_pos]
        rw [getLast_cons_getD]
        cases hcase : (rest.filter
            (fun r' => repoContainsRel fs cfg r' k)).getLast? with
        | some r'' => simp [hcase]
        | none =>
          simp only [hcase, Option.getD_none]
          rw [hlook', if_pos hmem]
      · have hc : repoContainsRel fs cfg r k = false := by
          unfold repoContainsRel
          simp [hmem]
        simp only [List.filter_cons, hc, Bool.false_eq_true, if_false]
        cases hcase : (rest.filter
            (fun r' => repoContainsRel fs cfg r' k)).getLast? with
        | some r'' => simp [hcase]
        | none =>
          rw [hlook', if_neg hmem]

/-- C1: for a full pass, when a relative path is produced by two or
more active repos, the resolved file list maps it to the repo with the
greatest index in the active-repo order (the last of the active repos
whose walk contains it). -/
theorem buildFileList_last_repo_wins (fs : Fs) (cfg : Config)
    (om : OrderedMap) (rel : Path)
    (h : buildFileList fs cfg [([] : Path)] [] = .ok om)
    (hcount : 2 ≤ (cfg.repos.filter
      (fun r => repoContainsRel fs cfg r rel)).length) :
    omLookup om rel =
      (cfg.repos.filter (fun r => repoContainsRel fs cfg r rel)).getLast? := by
  have hcons : buildFileList fs cfg [([] : Path)] [] =
      match populateRepos fs cfg [] cfg.repos [] false with
      | .error e => .error e
      | .ok (om', found) =>
        if found then buildFileList fs cfg [] om'
        else .error
          (.fileErr "not found in any active repositories" [] none) := rfl
  rw [hcons] at h
  cases hpr : populateRepos fs cfg [] cfg.repos [] false with
  | error e => rw [hpr] at h; exact Except.noConfusion h
  | ok pair =>
    obtain ⟨om', found⟩ := pair
    rw [hpr] at h
    cases found with
    | false => simp at h
    | true =>
      simp only [if_pos] at h
      have hom : om' = om := by
        have : buildFileList fs cfg [] om' = .ok om' := rfl
        rw [this] at h
        injection h
      subst hom
      have hlook := omLookup_populateRepos fs cfg cfg.repos [] om' false true
        rel hpr
      have hne : (cfg.repos.filter
          (fun r => repoContainsRel fs cfg r rel)) ≠ [] := by
        intro hnil
        rw [hnil] at hcount
        exact absurd hcount (by decide)
      obtain ⟨x, hx⟩ := Option.isSome_iff_exists.mp
        (List.getLast?_isSome.mpr hne)
      rw [hlook, hx]

/-- Witness for C1: with repos `["one", "two"]` both containing
`.bashrc`, resolution maps `.bashrc` to `two`, the last repo containing
it. -/
theorem buildFileList_last_repo_wins_witness :
    2 ≤ (exCfgTwo.repos.filter
      (fun r => repoContainsRel exFsTwo exCfgTwo r [".bashrc"])).length ∧
    omLookup [([".bashrc"], "two"), ([".vimrc"], "one"), ([".zshrc"], "two")]
        [".bashrc"] =
      (exCfgTwo.repos.filter
        (fun r => repoContainsRel exFsTwo exCfgTwo r [".bashrc"])).getLast? := by
  constructor
  · decide
  · exact buildFileList_last_repo_wins exFsTwo exCfgTwo
      [([".bashrc"], "two"), ([".vimrc"], "one"), ([".zshrc"], "two")]
      [".bashrc"] (by decide) (by decide)

/-- The defining equation of `buildFileList` on a non-empty input
list. -/
theorem buildFileList_cons (fs : Fs) (cfg : Config) (q : Path)
    (l : List Path) (om : OrderedMap) :
    buildFileList fs cfg (q :: l) om =
      match populateRepos fs cfg q cfg.repos om false with
      | .error e => .error e
      | .ok (om', found) =>
        if found then buildFileList fs cfg l om'
        else .error (.fileErr "not found in any active repositories" q none) :=
  rfl

/-- Splitting `buildFileList` over an append of input path lists. -/
theorem buildFileList_append (fs : Fs) (cfg : Config) (l₁ l₂ : List Path)
    (om : OrderedMap) :
    buildFileList fs cfg (l₁ ++ l₂) om =
      match buildFileList fs cfg l₁ om with
      | .ok om' => buildFileList fs cfg l₂ om'
      | .error e => .error e := by
  induction l₁ generalizing om with
  | nil => simp [buildFileList]
  | cons q rest ih =>
    simp only [List.cons_append]
    rw [buildFileList_cons, buildFileList_cons]
    cases hpr : populateRepos fs cfg q cfg.repos om false with
    | error e => simp
    | ok pair =>
      obtain ⟨om', found⟩ := pair
      cases found with
      | true => simpa using ih om'
      | false => simp

/-- A path bound in no active repo tree leaves `populateRepos`
untouched: every repo reports not-exist, which the loop skips. -/
theorem populateRepos_none_found (fs : Fs) (cfg : Config) (p : Path)
    (repos : List String) (om : OrderedMap) (found : Bool)
    (h : ∀ r ∈ repos, lookupNode fs (cfg.path ++ [r] ++ p) = none) :
    populateRepos fs cfg p repos om found = .ok (om, found) := by
  induction repos with
  | nil => rfl
  | cons r rest ih =>
    have hr := h r (by simp)
    have hroot : RepoPath cfg r [] ++ p = cfg.path ++ [r] ++ p := by
      simp [RepoPath]
    unfold populateRepos populateFileList
    rw [hroot, hr]
    simp only [isNotExistErr, if_pos]
    exact ih (fun r' hr' => h r' (List.mem_cons_of_mem _ hr'))

/-- C9: in a partial (targeted) pass, an explicitly requested input path
that is bound in no active repo makes resolution fail with the
"not found in any active repositories" `FileError` naming that path,
and the command returns this error with no per-file operation
attempted, nothing logged, no filesystem action performed and the
configuration not persisted. -/
theorem runPartialSync_input_not_found (cfg : Config) (dryRun : Bool)
    (fuel : Nat) (errorHandler : Handler) (operation : String)
    (handleFile : HandleFile) (fs : Fs) (pre rest : List Path) (p : Path)
    (om : OrderedMap)
    (hpre : buildFileList fs cfg pre [] = .ok om)
    (hmiss : ∀ r ∈ cfg.repos, lookupNode fs (cfg.path ++ [r] ++ p) = none) :
    runPartialSync cfg dryRun fuel errorHandler operation handleFile
        (pre ++ p :: rest) fs =
      some ⟨cfg, fs, [], [], [],
        some (.fileErr "not found in any active repositories" p none),
        false⟩ := by
  unfold runPartialSync
  rw [buildFileList_append, hpre]
  show (match buildFileList fs cfg (p :: rest) om with
    | .error e =>
      some (⟨cfg, fs, [], [], [], some e, false⟩ : RunResult)
    | .ok fileList =>
      match syncFiles cfg fuel errorHandler operation handleFile fileList
          cfg.manifest fs with
      | none => none
      | some res =>
        some ⟨{ cfg with manifest := res.nextManifest }, res.fs, res.acts,
          res.log, res.attempted, res.overallErr, !dryRun⟩) = _
  rw [buildFileList_cons,
    populateRepos_none_found fs cfg p cfg.repos om false hmiss]
  rfl

/-- Witness for C9: requesting `.fileA` (present in the repo) and then
`.nope` (present nowhere) fails with the not-found error for `.nope`
without attempting anything. -/
theorem runPartialSync_input_not_found_witness :
    runPartialSync exCfg false 1 noErrorHandler OperationLink
        (fun _ fsNow s d => handleLink exCfg false fsNow s d)
        ([[".fileA"]] ++ [".nope"] :: []) exFs =
      some ⟨exCfg, exFs, [], [], [],
        some (.fileErr "not found in any active repositories" [".nope"] none),
        false⟩ := by
  exact runPartialSync_input_not_found exCfg false 1 noErrorHandler
    OperationLink (fun _ fsNow s d => handleLink exCfg false fsNow s d) exFs
    [[".fileA"]] [] [".nope"] [([".fileA"], "files")] (by decide)
    (by decide)

/-- Folding key-deletions over a map only ever shrinks membership. -/
theorem mem_of_mem_foldl_filterKeys (l : List (Path × String))
    (m : List Path) (q : Path)
    (h : q ∈ l.foldl (fun acc kv => acc.filter (fun x => ¬ x = kv.1)) m) :
    q ∈ m := by
  induction l generalizing m with
  | nil => simpa using h
  | cons kv rest ih =>
    have h' := ih _ h
    exact (List.mem_filter.mp h').1

/-- Every key of the file list is absent after the deletion fold of
`EjectFiles`. -/
theorem not_mem_foldl_filterKeys (l : List (Path × String)) (m : List Path)
    (q : Path) (h : q ∈ l.map Prod.fst) :
    q ∉ l.foldl (fun acc kv => acc.filter (fun x => ¬ x = kv.1)) m := by
  induction l generalizing m with
  | nil => simp at h
  | cons kv rest ih =>
    simp only [List.map_cons, List.mem_cons] at h
    cases h with
    | inl hq =>
      intro hmem
      have := mem_of_mem_foldl_filterKeys rest _ q hmem
      have := (List.mem_filter.mp this).2
      simp [hq] at this
    | inr hq => exact ih _ hq

/-- C10: every path resolved by `EjectFiles` is deleted from the
manifest after the pass, whatever the per-file outcomes were — including
paths whose copy failed with a suppressed error and paths never
attempted because an earlier file aborted the pass. -/
theorem ejectFiles_untracks_every_resolved_path (cfg : Config)
    (dryRun : Bool) (fuel : Nat) (errorHandler : Handler)
    (inputFilenames : List Path) (fs : Fs) (fileList : OrderedMap)
    (r : RunResult)
    (hfl : buildFileList fs cfg inputFilenames [] = .ok fileList)
    (hr : EjectFiles cfg dryRun fuel errorHandler inputFilenames fs = some r) :
    ∀ q ∈ fileList.map Prod.fst, q ∉ r.cfg.manifest := by
  intro q hq
  unfold EjectFiles at hr
  split at hr
  · rename_i e heq
    rw [hfl] at heq
    cases heq
  · rename_i fl' heq
    rw [hfl] at heq
    injection heq with heq'
    subst heq'
    split at hr
    · exact Option.noConfusion hr
    · rename_i res hsync
      have hr' := Option.some.inj hr
      rw [← hr']
      simpa using not_mem_foldl_filterKeys fileList res.nextManifest q hq

/-- The defining equation of `syncFiles` on a non-empty file list. -/
theorem syncFiles_cons (cfg : Config) (fuel : Nat) (errorHandler : Handler)
    (operation : String) (handleFile : HandleFile) (relative : Path)
    (repo : String) (rest : List (Path × String)) (nextManifest : List Path)
    (fs : Fs) :
    syncFiles cfg fuel errorHandler operation handleFile
        ((relative, repo) :: rest) nextManifest fs =
      match processWithRetry errorHandler
          (syncProcess handleFile (RepoPath cfg repo relative)
            (TargetPath cfg relative) relative) fuel 0 0 fs [] with
      | none => none
      | some (fs', acts, out) =>
        if out.aborted then
          some ⟨fs', insertSet nextManifest relative, acts, [], [relative],
            out.reason⟩
        else
          match syncFiles cfg fuel errorHandler operation handleFile rest
              (insertSet nextManifest relative) fs' with
          | none => none
          | some res =>
            some ⟨res.fs, res.nextManifest, acts ++ res.acts,
              (⟨if out.skipped then OperationSkip else operation, relative,
                repo, out.reason⟩ : LogEntry) :: res.log,
              relative :: res.attempted, res.overallErr⟩ :=
  rfl

/-- C8 (amended): a per-file operation that reports the `ErrNotNeeded`
sentinel is logged as Skipped with the wrapped "already up to date"
error retained as the reason (not with no reason), and a failure
suppressed by the handler is logged as Skipped with the original error
retained as the reason. -/
theorem syncFiles_skip_reason_classification (cfg : Config) (fuel : Nat)
    (errorHandler : Handler) (operation : String) (hf : HandleFile)
    (relative : Path) (repo : String) (rest : List (Path × String))
    (nm : List Path) (fs fs₁ : Fs) (acts₁ : List Action) (e : GoErr)
    (res : SyncResult)
    (h0 : hf 0 fs (RepoPath cfg repo relative) (TargetPath cfg relative) =
      ⟨fs₁, acts₁, some e⟩)
    (hres : syncFiles cfg (fuel + 1) errorHandler operation hf
      ((relative, repo) :: rest) nm fs = some res) :
    (isNotNeeded (wrapFileError e relative) = true →
      res.log.head? = some ⟨OperationSkip, relative, repo,
        some (wrapFileError e relative)⟩) ∧
    (isNotNeeded (wrapFileError e relative) = false →
      errorHandler 0 (wrapFileError e relative) = none →
      res.log.head? = some ⟨OperationSkip, relative, repo,
        some (wrapFileError e relative)⟩) := by
  constructor
  · intro hnn
    have hpr : processWithRetry errorHandler
        (syncProcess hf (RepoPath cfg repo relative)
          (TargetPath cfg relative) relative) (fuel + 1) 0 0 fs [] =
        some (fs₁, acts₁,
          ⟨true, false, some (wrapFileError e relative), 1, 0⟩) := by
      unfold processWithRetry
      simp [syncProcess, h0, hnn]
    rw [syncFiles_cons, hpr] at hres
    simp only [Bool.false_eq_true, if_false] at hres
    split at hres
    · exact Option.noConfusion hres
    · rename_i res' hrest
      have := Option.some.inj hres
      rw [← this]
      simp
  · intro hnn hh
    have hpr : processWithRetry errorHandler
        (syncProcess hf (RepoPath cfg repo relative)
          (TargetPath cfg relative) relative) (fuel + 1) 0 0 fs [] =
        some (fs₁, acts₁,
          ⟨true, false, some (wrapFileError e relative), 1, 1⟩) := by
      unfold processWithRetry
      simp [syncProcess, h0, hnn, hh]
    rw [syncFiles_cons, hpr] at hres
    simp only [Bool.false_eq_true, if_false] at hres
    split at hres
    · exact Option.noConfusion hres
    · rename_i res' hrest
      have := Option.some.inj hres
      rw [← this]
      simp

/-- Witness for C8: in the already-linked fixture the per-file link
operation reports `ErrNotNeeded`, and the pass logs it as Skipped with
the wrapped "already up to date" error as its reason. -/
theorem syncFiles_skip_reason_classification_witness :
    (isNotNeeded (wrapFileError (.base .notNeeded) [".fileA"]) = true →
      (⟨exFsLinked, [[".fileA"]],
        [Action.lstat ["home", "test", ".fileA"],
          Action.readlink ["home", "test", ".fileA"]],
        [⟨OperationSkip, [".fileA"], "files",
          some (.fileErr "already up to date" [".fileA"] (some .notNeeded))⟩],
        [[".fileA"]], none⟩ : SyncResult).log.head? =
        some ⟨OperationSkip, [".fileA"], "files",
          some (wrapFileError (.base .notNeeded) [".fileA"])⟩) ∧
    (isNotNeeded (wrapFileError (.base .notNeeded) [".fileA"]) = false →
      noErrorHandler 0 (wrapFileError (.base .notNeeded) [".fileA"]) = none →
      (⟨exFsLinked, [[".fileA"]],
        [Action.lstat ["home", "test", ".fileA"],
          Action.readlink ["home", "test", ".fileA"]],
        [⟨OperationSkip, [".fileA"], "files",
          some (.fileErr "already up to date" [".fileA"] (some .notNeeded))⟩],
        [[".fileA"]], none⟩ : SyncResult).log.head? =
        some ⟨OperationSkip, [".fileA"], "files",
          some (wrapFileError (.base .notNeeded) [".fileA"])⟩) := by
  exact syncFiles_skip_reason_classification exCfgA 0 noErrorHandler
    OperationLink (fun _ fsNow s d => handleLink exCfgA false fsNow s d)
    [".fileA"] "files" [] [] exFsLinked exFsLinked
    [Action.lstat ["home", "test", ".fileA"],
      Action.readlink ["home", "test", ".fileA"]]
    (.base .notNeeded) _ (by decide) (by decide)

/-- Counterexample for C8: the sentinel ("already up to date") case is
logged with a non-`nil` reason — the wrapped `ErrNotNeeded` error — not
with no reason as the claim states. -/
theorem syncFiles_notNeeded_logs_reason_counterexample :
    (LinkAll exCfgA false 1 noErrorHandler exFsLinked).map RunResult.log =
      some [⟨OperationSkip, [".fileA"], "files",
        some (.fileErr "already up to date" [".fileA"] (some .notNeeded))⟩] ∧
    (some (GoErr.fileErr "already up to date" [".fileA"] (some .notNeeded)) ≠
      (none : Option GoErr)) := by
  constructor
  · decide
  · decide

/-- The retry engine only reports an abort together with the escalated
error. -/
theorem processWithRetry_aborted_isSome (errorHandler : Handler)
    (process : ProcessFun) :
    ∀ (fuel calls consults : Nat) (fs : Fs) (acts : List Action) (fs' : Fs)
      (acts' : List Action) (out : RetryOutcome),
      processWithRetry errorHandler process fuel calls consults fs acts =
        some (fs', acts', out) →
      out.aborted = true → out.reason.isSome = true := by
  intro fuel
  induction fuel with
  | zero => intro _ _ _ _ _ _ _ h; exact Option.noConfusion h
  | succ fuel ih =>
    intro calls consults fs acts fs' acts' out h habort
    unfold processWithRetry at h
    split at h
    · simp only [Option.some.injEq, Prod.mk.injEq] at h
      obtain ⟨-, -, hout⟩ := h
      rw [← hout] at habort
      exact Bool.noConfusion habort
    · split at h
      · simp only [Option.some.injEq, Prod.mk.injEq] at h
        obtain ⟨-, -, hout⟩ := h
        rw [← hout] at habort
        exact Bool.noConfusion habort
      · split at h
        · simp only [Option.some.injEq, Prod.mk.injEq] at h
          obtain ⟨-, -, hout⟩ := h
          rw [← hout] at habort
          exact Bool.noConfusion habort
        · split at h
          · exact ih _ _ _ _ _ _ _ h habort
          · simp only [Option.some.injEq, Prod.mk.injEq] at h
            obtain ⟨-, -, hout⟩ := h
            rw [← hout]
            rfl

/-- Splitting `syncFiles` over an append of file lists: an abort inside
the first part short-circuits past the second. -/
theorem syncFiles_append (cfg : Config) (fuel : Nat) (errorHandler : Handler)
    (operation : String) (handleFile : HandleFile)
    (l₁ l₂ : List (Path × String)) :
    ∀ (nm : List Path) (fs : Fs),
    syncFiles cfg fuel errorHandler operation handleFile (l₁ ++ l₂) nm fs =
      match syncFiles cfg fuel errorHandler operation handleFile l₁ nm fs with
      | none => none
      | some res =>
        if res.overallErr.isSome then some res
        else
          match syncFiles cfg fuel errorHandler operation handleFile l₂
              res.nextManifest res.fs with
          | none => none
          | some res₂ =>
            some ⟨res₂.fs, res₂.nextManifest, res.acts ++ res₂.acts,
              res.log ++ res₂.log, res.attempted ++ res₂.attempted,
              res₂.overallErr⟩ := by
  induction l₁ with
  | nil =>
    intro nm fs
    cases h₂ : syncFiles cfg fuel errorHandler operation handleFile l₂ nm fs
      with
    | none => simp [syncFiles, h₂]
    | some res₂ => simp [syncFiles, h₂]
  | cons hd rest ih =>
    intro nm fs
    obtain ⟨relative, repo⟩ := hd
    rw [List.cons_append, syncFiles_cons, syncFiles_cons]
    cases hpr : processWithRetry errorHandler
        (syncProcess handleFile (RepoPath cfg repo relative)
          (TargetPath cfg relative) relative) fuel 0 0 fs [] with
    | none => rfl
    | some trip =>
      obtain ⟨fs', acts, out⟩ := trip
      cases hab : out.aborted with
      | true =>
        have hsome := processWithRetry_aborted_isSome errorHandler _ fuel 0 0
          fs [] fs' acts out hpr hab
        simp [hab, hsome]
      | false =>
        simp only [hab, Bool.false_eq_true, if_false]
        rw [ih]
        cases hr : syncFiles cfg fuel errorHandler operation handleFile rest
            (insertSet nm relative) fs' with
        | none => rfl
        | some res =>
          cases herr : res.overallErr with
          | some e => simp [herr]
          | none =>
            simp only [herr, Option.isSome_none, Bool.false_eq_true, if_false]
            cases h₂ : syncFiles cfg fuel errorHandler operation handleFile l₂
                res.nextManifest res.fs with
            | none => rfl
            | some res₂ => simp [herr]

/-- A pass that did not abort attempted exactly the listed files, in
order, recorded exactly their keys into the candidate manifest, and
logged one entry per file. -/
theorem syncFiles_no_abort_spec (cfg : Config) (fuel : Nat)
    (errorHandler : Handler) (operation : String) (handleFile : HandleFile) :
    ∀ (l : List (Path × String)) (nm : List Path) (fs : Fs)
      (res : SyncResult),
    syncFiles cfg fuel errorHandler operation handleFile l nm fs = some res →
    res.overallErr = none →
    res.attempted = l.map Prod.fst ∧
    res.nextManifest = (l.map Prod.fst).foldl insertSet nm ∧
    res.log.length = l.length := by
  intro l
  induction l with
  | nil =>
    intro nm fs res h _
    injection h with h'
    rw [← h']
    exact ⟨rfl, rfl, rfl⟩
  | cons hd rest ih =>
    intro nm fs res h hok
    obtain ⟨relative, repo⟩ := hd
    rw [syncFiles_cons] at h
    cases hpr : processWithRetry errorHandler
        (syncProcess handleFile (RepoPath cfg repo relative)
          (TargetPath cfg relative) relative) fuel 0 0 fs [] with
    | none => rw [hpr] at h; exact Option.noConfusion h
    | some trip =>
      obtain ⟨fs', acts, out⟩ := trip
      rw [hpr] at h
      dsimp only at h
      cases hab : out.aborted with
      | true =>
        rw [hab, if_pos rfl] at h
        injection h with h'
        rw [← h'] at hok
        have hok' : out.reason = none := hok
        have hsome := processWithRetry_aborted_isSome errorHandler _ fuel 0 0
          fs [] fs' acts out hpr hab
        rw [hok'] at hsome
        exact Bool.noConfusion hsome
      | false =>
        rw [hab, if_neg (by decide)] at h
        cases hr : syncFiles cfg fuel errorHandler operation handleFile rest
            (insertSet nm relative) fs' with
        | none => rw [hr] at h; exact Option.noConfusion h
        | some res' =>
          rw [hr] at h
          injection h with h'
          rw [← h'] at hok ⊢
          obtain ⟨ha, hnm, hlog⟩ := ih (insertSet nm relative) fs' res' hr hok
          refine ⟨?_, ?_, ?_⟩
          · simpa using ha
          · simpa using hnm
          · simpa using hlog

/-- C2: in a full sync pass whose resolved file list is
`pre ++ (b, rb) :: post`, if processing `pre` does not abort and the
operation of `b` escalates to an abort, then the run stops at `b`: the
files of `post` are never attempted, nothing beyond the sync trace
happens (the autoclean is skipped entirely — no removal action, no
removal log entry), the pass returns the escalated error, and the
resulting manifest is exactly the union of the pre-pass manifest with
the keys attempted up to and including `b` (so `b`, recorded in the
candidate manifest before its operation ran, is tracked even though its
operation failed). -/
theorem runSync_abort_spec (cfg : Config) (dryRun : Bool) (fuel : Nat)
    (errorHandler : Handler) (operation : String) (handleFile : HandleFile)
    (fs : Fs) (pre post : List (Path × String)) (b : Path) (rb : String)
    (res₀ : SyncResult) (fsB : Fs) (actsB : List Action) (out : RetryOutcome)
    (hfl : buildFileList fs cfg [([] : Path)] [] =
      .ok (pre ++ (b, rb) :: post))
    (hpre : syncFiles cfg fuel errorHandler operation handleFile pre [] fs =
      some res₀)
    (hok : res₀.overallErr = none)
    (habort : processWithRetry errorHandler
      (syncProcess handleFile (RepoPath cfg rb b) (TargetPath cfg b) b)
      fuel 0 0 res₀.fs [] = some (fsB, actsB, out))
    (hab : out.aborted = true) :
    runSync cfg dryRun fuel errorHandler operation handleFile fs =
      some ⟨{ cfg with manifest :=
          cfg.manifest.foldl insertSet (insertSet res₀.nextManifest b) },
        fsB, res₀.acts ++ actsB, res₀.log, pre.map Prod.fst ++ [b],
        out.reason, !dryRun⟩ ∧
      (∀ q, q ∈ cfg.manifest.foldl insertSet (insertSet res₀.nextManifest b) ↔
        q ∈ cfg.manifest ∨ q ∈ pre.map Prod.fst ∨ q = b) := by
  obtain ⟨hatt, hnm, -⟩ := syncFiles_no_abort_spec cfg fuel errorHandler
    operation handleFile pre [] fs res₀ hpre hok
  constructor
  · unfold runSync
    rw [hfl]
    dsimp only
    rw [syncFiles_append, hpre]
    dsimp only
    simp only [hok, Option.isSome_none, Bool.false_eq_true, if_false]
    rw [syncFiles_cons, habort]
    dsimp only
    simp only [hab, if_pos]
    have hsome := processWithRetry_aborted_isSome errorHandler _ fuel 0 0
      res₀.fs [] fsB actsB out habort hab
    simp only [hsome, if_pos, hatt, List.append_nil]
  · intro q
    rw [mem_foldl_insertSet, mem_insertSet, hnm, mem_foldl_insertSet]
    simp only [List.not_mem_nil, false_or]
    tauto

/-- Witness for C2: syncing `.fileA`, `.fileB`, `.fileC` where `.fileB`
fails and the handler escalates — `.fileA` is linked, the pass aborts at
`.fileB`, `.fileC` is never attempted, the autoclean never runs, and the
final manifest is the union of the pre-pass manifest with `.fileA` and
`.fileB`. -/
theorem runSync_abort_spec_witness :
    runSync exCfgABC false 2 noErrorHandler OperationLink exHfB exFsABC =
      some ⟨{ exCfgABC with manifest :=
          (exCfgABC.manifest.foldl insertSet
            (insertSet exRes0.nextManifest [".fileB"])) },
        exRes0.fs, exRes0.acts ++ [], exRes0.log,
        ([([".fileA"], "files")] : List (Path × String)).map Prod.fst ++
          [[".fileB"]],
        some (.fileErr "fake error" [".fileB"] (some (.errorf "fake error"))),
        !false⟩ ∧
      (∀ q, q ∈ exCfgABC.manifest.foldl insertSet
          (insertSet exRes0.nextManifest [".fileB"]) ↔
        q ∈ exCfgABC.manifest ∨
        q ∈ ([([".fileA"], "files")] : List (Path × String)).map Prod.fst ∨
        q = [".fileB"]) := by
  exact runSync_abort_spec exCfgABC false 2 noErrorHandler OperationLink
    exHfB exFsABC [([".fileA"], "files")] [([".fileC"], "files")]
    [".fileB"] "files" exRes0 exRes0.fs []
    ⟨false, true,
      some (.fileErr "fake error" [".fileB"] (some (.errorf "fake error"))),
      1, 1⟩
    (by decide) (by decide) (by decide) (by decide) (by decide)

/-- `CleanDirectories` refines the spec's walk: its final filesystem is
the original minus the chain of now-empty ancestor directories
(strictly below the root), however the walk ends. -/
theorem cleanDirectories_fs_spec_aux (n : Nat) :
    ∀ (fs : Fs) (d root : Path),
      (cleanDirectoriesAux n fs d root).1 =
        (emptyAncestorChainAux n fs d root).foldl eraseEntry fs := by
  induction n with
  | zero => intro fs d root; rfl
  | succ n ih =>
    intro fs d root
    unfold cleanDirectoriesAux emptyAncestorChainAux
    by_cases hc : root.length < d.length ∧ root.isPrefixOf d
    · rw [if_pos hc, if_pos hc]
      cases hl : lookupNode fs d with
      | none => simp [fsReadDir, hl]
      | some node =>
        cases node with
        | regular c => simp [fsReadDir, hl]
        | symlink t => simp [fsReadDir, hl]
        | dir =>
          by_cases hch : children fs d = []
          · simp only [fsReadDir, hl, hch, fsRemove, if_pos]
            have := ih (eraseEntry fs d) d.dropLast root
            simp only [List.length_nil, Nat.lt_irrefl, Bool.false_eq_true,
              if_false, List.foldl_cons]
            exact this
          · have hlen0 : 0 < (children fs d).length :=
              List.length_pos.mpr hch
            simp [fsReadDir, hl, hch, hlen0]
    · rw [if_neg hc, if_neg hc]
      rfl

/-- `CleanDirectories` refines the spec's upward walk (wrapper of the
fueled induction). -/
theorem cleanDirectories_fs_spec (fs : Fs) (d root : Path) :
    (cleanDirectories fs d root).1 =
      (emptyAncestorChain fs d root).foldl eraseEntry fs :=
  cleanDirectories_fs_spec_aux d.length fs d root

/-- One autoclean removal (real mode) has exactly the spec's effect on
the filesystem: remove the file if possible, then erase the chain of
now-empty ancestors. -/
theorem autocleanRemove_fs_spec (targetPath : Path) (fs : Fs) (f : Path) :
    (autocleanRemove targetPath false fs f).1 =
      specRemoveOne targetPath fs f := by
  unfold autocleanRemove specRemoveOne
  simp only [Bool.false_eq_true, if_false]
  unfold fsRemove
  cases hl : lookupNode fs (targetPath ++ f) with
  | none => rfl
  | some node =>
    cases node with
    | regular c =>
      simp only
      rw [← cleanDirectories_fs_spec]
    | symlink t =>
      simp only
      rw [← cleanDirectories_fs_spec]
    | dir =>
      by_cases hch : children fs (targetPath ++ f) = []
      · simp only [hch, if_pos]
        rw [← cleanDirectories_fs_spec]
      · simp only [hch, Bool.false_eq_true, if_neg]
        rfl

/-- The defining equation of `autocleanLoop` on a non-empty removal
list. -/
theorem autocleanLoop_cons (targetPath : Path) (dryRun : Bool) (f : Path)
    (rest : List Path) (fs : Fs) (manifest : List Path) :
    autocleanLoop targetPath dryRun (f :: rest) fs manifest =
      match autocleanRemove targetPath dryRun fs f with
      | (fs₁, acts₁, err) =>
        match autocleanLoop targetPath dryRun rest fs₁
            (if err = none then eraseManifest manifest f else manifest) with
        | (fs₂, manifest₂, acts₂, log₂) =>
          (fs₂, manifest₂, acts₁ ++ acts₂,
            (⟨OperationRemove, f, "", err⟩ : LogEntry) :: log₂) :=
  rfl

/-- The autoclean removal loop (real mode): one log entry per orphaned
path, in order; the filesystem effect is the spec's; a path stays in the
manifest exactly when it was there before and no successful removal
entry names it. -/
theorem autocleanLoop_spec (targetPath : Path) :
    ∀ (toRemove : List Path) (fs : Fs) (manifest : List Path),
    (autocleanLoop targetPath false toRemove fs manifest).2.2.2.map
        (fun en => en.relative) = toRemove ∧
    (autocleanLoop targetPath false toRemove fs manifest).1 =
      autocleanSpecFs targetPath fs toRemove ∧
    (∀ p, p ∈ (autocleanLoop targetPath false toRemove fs manifest).2.1 ↔
      p ∈ manifest ∧
      ∀ en ∈ (autocleanLoop targetPath false toRemove fs manifest).2.2.2,
        en.relative = p → en.reason ≠ none) := by
  intro toRemove
  induction toRemove with
  | nil =>
    intro fs manifest
    refine ⟨rfl, rfl, ?_⟩
    intro p
    simp [autocleanLoop]
  | cons f rest ih =>
    intro fs manifest
    cases hrm : autocleanRemove targetPath false fs f with
    | mk fs₁ rest₁ =>
      obtain ⟨acts₁, err⟩ := rest₁
      have hfs₁ : fs₁ = specRemoveOne targetPath fs f := by
        have := autocleanRemove_fs_spec targetPath fs f
        rw [hrm] at this
        exact this
      obtain ⟨ih₁, ih₂, ih₃⟩ := ih fs₁
        (if err = none then eraseManifest manifest f else manifest)
      cases hloop : autocleanLoop targetPath false rest fs₁
          (if err = none then eraseManifest manifest f else manifest) with
      | mk fs₂ rest₂ =>
        obtain ⟨manifest₂, acts₂, log₂⟩ := rest₂
        rw [autocleanLoop_cons, hrm]
        dsimp only
        rw [hloop]
        rw [hloop] at ih₁ ih₂ ih₃
        dsimp only at ih₁ ih₂ ih₃ ⊢
        refine ⟨?_, ?_, ?_⟩
        · rw [List.map_cons, ih₁]
        · rw [ih₂, hfs₁]
          rfl
        · intro p
          simp only [List.mem_cons]
          constructor
          · intro hp
            have := (ih₃ p).mp hp
            obtain ⟨hpm, hcond⟩ := this
            cases herr : err with
            | none =>
              rw [herr] at hpm
              simp only [if_pos] at hpm
              unfold eraseManifest at hpm
              have hpm' := List.mem_filter.mp hpm
              refine ⟨hpm'.1, ?_⟩
              intro en hen hrel
              cases hen with
              | inl he =>
                rw [he] at hrel
                exfalso
                have hne : p ≠ f := by simpa using hpm'.2
                exact hne ((show f = p from hrel)).symm
              | inr he => exact hcond en he hrel
            | some e =>
              rw [herr] at hpm
              rw [if_neg (Option.some_ne_none e)] at hpm
              refine ⟨hpm, ?_⟩
              intro en hen hrel
              cases hen with
              | inl he =>
                rw [he]
                simp
              | inr he => exact hcond en he hrel
          · intro ⟨hpm, hcond⟩
            rw [ih₃ p]
            constructor
            · cases herr : err with
              | none =>
                simp only [if_pos]
                unfold eraseManifest
                rw [List.mem_filter]
                refine ⟨hpm, ?_⟩
                have hne : ¬ p = f := by
                  intro hpf
                  have hhead := hcond ⟨OperationRemove, f, "", err⟩
                    (Or.inl rfl) (by simp [hpf])
                  rw [herr] at hhead
                  exact hhead rfl
                simpa using hne
              | some e =>
                rw [if_neg (Option.some_ne_none e)]
                exact hpm
            · intro en hen hrel
              exact hcond en (Or.inr hen) hrel

/-- C3: autoclean (real mode) attempts to remove from the target
exactly the orphaned paths — those in the previous manifest but not in
the candidate next manifest — one log entry each, in sorted order,
regardless of failures on other paths; its whole filesystem effect is
the spec's (each removed file followed by the upward walk erasing
now-empty ancestor directories strictly below the target root); and a
path is dropped from the manifest exactly when its removal (including
the directory cleanup) succeeded: candidate-manifest paths stay
tracked, nothing outside the previous and candidate manifests appears,
a successfully removed path is untracked, and a tracked path with no
successful removal entry stays tracked. -/
theorem autoclean_spec (cfg : Config) (fs : Fs) (nextManifest : List Path)
    (R : CleanResult)
    (hR : autoclean cfg false fs nextManifest = R) :
    R.log.map (fun en => en.relative) =
      orphanedPaths cfg.manifest nextManifest ∧
    R.fs = autocleanSpecFs cfg.targetPath fs
      (orphanedPaths cfg.manifest nextManifest) ∧
    (∀ p ∈ nextManifest, p ∈ R.manifest) ∧
    (∀ p, p ∈ R.manifest → p ∈ nextManifest ∨ p ∈ cfg.manifest) ∧
    (∀ en ∈ R.log, en.reason = none → ¬ en.relative ∈ nextManifest →
      ¬ en.relative ∈ R.manifest) ∧
    (∀ p ∈ cfg.manifest,
      (∀ en ∈ R.log, en.relative = p → en.reason ≠ none) →
      p ∈ R.manifest) := by
  obtain ⟨l1, l2, l3⟩ := autocleanLoop_spec cfg.targetPath
    (orphanedPaths cfg.manifest nextManifest) fs cfg.manifest
  unfold autoclean at hR
  cases hloop : autocleanLoop cfg.targetPath false
      (orphanedPaths cfg.manifest nextManifest) fs cfg.manifest with
  | mk fs' rest' =>
    obtain ⟨manifest', acts, log⟩ := rest'
    rw [hloop] at hR l1 l2 l3
    dsimp only at l1 l2 l3
    rw [← hR]
    dsimp only
    refine ⟨l1, l2, ?_, ?_, ?_, ?_⟩
    · intro p hp
      rw [mem_foldl_insertSet]
      exact Or.inr hp
    · intro p hp
      rw [mem_foldl_insertSet] at hp
      cases hp with
      | inl hp' => exact Or.inr ((l3 p).mp hp').1
      | inr hp' => exact Or.inl hp'
    · intro en hen hreason hnnext hmem
      rw [mem_foldl_insertSet] at hmem
      cases hmem with
      | inl hp' =>
        have := ((l3 en.relative).mp hp').2 en hen rfl
        exact this hreason
      | inr hp' => exact hnnext hp'
    · intro p hp hcond
      rw [mem_foldl_insertSet]
      exact Or.inl ((l3 p).mpr ⟨hp, hcond⟩)

/-- Witness for C3: cleaning with previous manifest
`{.config/fileA, .gone}` and next manifest `{.fileB}` removes
`.config/fileA` and its emptied parent directory, fails on the missing
`.gone` which therefore stays tracked, and keeps `.fileB` tracked. -/
theorem autoclean_spec_witness :
    exCleanResult.log.map (fun en => en.relative) =
      orphanedPaths exCfgClean.manifest [[".fileB"]] ∧
    exCleanResult.fs = autocleanSpecFs exCfgClean.targetPath exFsClean
      (orphanedPaths exCfgClean.manifest [[".fileB"]]) ∧
    (∀ p ∈ ([[".fileB"]] : List Path), p ∈ exCleanResult.manifest) ∧
    (∀ p, p ∈ exCleanResult.manifest →
      p ∈ ([[".fileB"]] : List Path) ∨ p ∈ exCfgClean.manifest) ∧
    (∀ en ∈ exCleanResult.log, en.reason = none →
      ¬ en.relative ∈ ([[".fileB"]] : List Path) →
      ¬ en.relative ∈ exCleanResult.manifest) ∧
    (∀ p ∈ exCfgClean.manifest,
      (∀ en ∈ exCleanResult.log, en.relative = p → en.reason ≠ none) →
      p ∈ exCleanResult.manifest) := by
  exact autoclean_spec exCfgClean exFsClean [[".fileB"]] exCleanResult
    (by decide)

/-- A dry-run link operation only probes: the filesystem is unchanged,
only non-mutating actions run, and the result is success or the
already-up-to-date sentinel. -/
theorem handleLink_dry (cfg : Config) (fs : Fs) (s d : Path) :
    (handleLink cfg true fs s d).fs = fs ∧
    (∀ a ∈ (handleLink cfg true fs s d).acts, a.isMutating = false) ∧
    ((handleLink cfg true fs s d).err = none ∨
      (handleLink cfg true fs s d).err = some (.base .notNeeded)) := by
  unfold handleLink isLinkedFile
  cases hl : lookupNode fs d with
  | none => simp [Action.isMutating]
  | some node =>
    cases node with
    | regular c => simp [Action.isMutating]
    | symlink t =>
      by_cases ht : t = s
      · simp [ht, Action.isMutating]
      · simp [ht, Action.isMutating]
    | dir => simp [Action.isMutating]

/-- A dry-run copy operation does nothing at all. -/
theorem handleCopy_dry (cfg : Config) (fs : Fs) (s d : Path) :
    handleCopy cfg true fs s d = ⟨fs, [], none⟩ := rfl

/-- A dry-run sync pass over any file list succeeds without touching
the filesystem: no mutating action, one log entry per file, and the
candidate manifest collects exactly the keys. -/
theorem syncFiles_dry_spec (cfg : Config) (fuel : Nat)
    (errorHandler : Handler) (operation : String) (handleFile : HandleFile)
    (hhf : ∀ (i : Nat) (fsNow : Fs) (s d : Path),
      (handleFile i fsNow s d).fs = fsNow ∧
      (∀ a ∈ (handleFile i fsNow s d).acts, a.isMutating = false) ∧
      ((handleFile i fsNow s d).err = none ∨
        (handleFile i fsNow s d).err = some (.base .notNeeded)))
    (hfuel : 0 < fuel) :
    ∀ (l : List (Path × String)) (nm : List Path) (fs : Fs),
    ∃ res, syncFiles cfg fuel errorHandler operation handleFile l nm fs =
        some res ∧
      res.fs = fs ∧
      res.overallErr = none ∧
      (∀ a ∈ res.acts, a.isMutating = false) ∧
      res.log.length = l.length ∧
      res.nextManifest = (l.map Prod.fst).foldl insertSet nm := by
  intro l
  induction l with
  | nil =>
    intro nm fs
    exact ⟨⟨fs, nm, [], [], [], none⟩, rfl, rfl, rfl, by simp, rfl, rfl⟩
  | cons hd rest ih =>
    intro nm fs
    obtain ⟨relative, repo⟩ := hd
    obtain ⟨hfs, hacts, herr⟩ := hhf 0 fs (RepoPath cfg repo relative)
      (TargetPath cfg relative)
    obtain ⟨fuel', rfl⟩ : ∃ fuel', fuel = fuel' + 1 :=
      ⟨fuel - 1, by omega⟩
    obtain ⟨res', hres', hfs', herr', hacts', hlog', hnm'⟩ :=
      ih (insertSet nm relative) fs
    cases herr with
    | inl hnone =>
      have hpr : processWithRetry errorHandler
          (syncProcess handleFile (RepoPath cfg repo relative)
            (TargetPath cfg relative) relative) (fuel' + 1) 0 0 fs [] =
          some (fs,
            (handleFile 0 fs (RepoPath cfg repo relative)
              (TargetPath cfg relative)).acts,
            ⟨false, false, none, 1, 0⟩) := by
        simp [processWithRetry, syncProcess, hnone, hfs]
      refine ⟨⟨res'.fs, res'.nextManifest,
        (handleFile 0 fs (RepoPath cfg repo relative)
          (TargetPath cfg relative)).acts ++ res'.acts,
        (⟨operation, relative, repo, none⟩ : LogEntry) :: res'.log,
        relative :: res'.attempted, res'.overallErr⟩, ?_, ?_, ?_, ?_, ?_, ?_⟩
      · rw [syncFiles_cons, hpr]
        dsimp only
        simp only [Bool.false_eq_true, if_false]
        rw [hres']
      · exact hfs'
      · exact herr'
      · intro a ha
        rw [List.mem_append] at ha
        cases ha with
        | inl h => exact hacts a h
        | inr h => exact hacts' a h
      · simp [hlog']
      · simpa using hnm'
    | inr hnn =>
      have hpr : processWithRetry errorHandler
          (syncProcess handleFile (RepoPath cfg repo relative)
            (TargetPath cfg relative) relative) (fuel' + 1) 0 0 fs [] =
          some (fs,
            (handleFile 0 fs (RepoPath cfg repo relative)
              (TargetPath cfg relative)).acts,
            ⟨true, false,
              some (wrapFileError (.base .notNeeded) relative), 1, 0⟩) := by
        simp [processWithRetry, syncProcess, hnn, hfs, wrapFileError,
          errMessage, isNotNeeded]
      refine ⟨⟨res'.fs, res'.nextManifest,
        (handleFile 0 fs (RepoPath cfg repo relative)
          (TargetPath cfg relative)).acts ++ res'.acts,
        (⟨OperationSkip, relative, repo,
          some (wrapFileError (.base .notNeeded) relative)⟩ : LogEntry) ::
          res'.log,
        relative :: res'.attempted, res'.overallErr⟩, ?_, ?_, ?_, ?_, ?_, ?_⟩
      · rw [syncFiles_cons, hpr]
        dsimp only
        simp only [Bool.false_eq_true, if_false]
        rw [hres']
        simp
      · exact hfs'
      · exact herr'
      · intro a ha
        rw [List.mem_append] at ha
        cases ha with
        | inl h => exact hacts a h
        | inr h => exact hacts' a h
      · simp [hlog']
      · simpa using hnm'

/-- A dry-run autoclean removal loop logs every orphaned path, performs
no filesystem call, and drops every orphan from the manifest. -/
theorem autocleanLoop_dry (targetPath : Path) :
    ∀ (toRemove : List Path) (fs : Fs) (manifest : List Path),
    autocleanLoop targetPath true toRemove fs manifest =
      (fs, toRemove.foldl eraseManifest manifest, [],
        toRemove.map (fun f => ⟨OperationRemove, f, "", none⟩)) := by
  intro toRemove
  induction toRemove with
  | nil => intro fs manifest; rfl
  | cons f rest ih =>
    intro fs manifest
    rw [autocleanLoop_cons]
    show (match autocleanLoop targetPath true rest fs
        (if (none : Option GoErr) = none then eraseManifest manifest f
         else manifest) with
      | (fs₂, manifest₂, acts₂, log₂) =>
        (fs₂, manifest₂, ([] : List Action) ++ acts₂,
          (⟨OperationRemove, f, "", none⟩ : LogEntry) :: log₂)) = _
    rw [if_pos rfl, ih]
    rfl

/-- C5 (amended): a full sync pass run with DryRun set — in link or
copy mode, including its autoclean — performs no mutating filesystem
call at all, does not persist the configuration, finishes without
error, leaves the filesystem untouched, and still emits one log entry
per resolved file plus one per removal candidate.  (The original
claim's "all decision probes still occur" is dropped: dry-run copy
short-circuits before the already-linked probe, see the
counterexample.) -/
theorem runSync_dryRun_no_mutation (cfg : Config) (fuel : Nat)
    (errorHandler : Handler) (mode : Bool) (fs : Fs) (fl : OrderedMap)
    (hfl : buildFileList fs cfg [([] : Path)] [] = .ok fl)
    (hfuel : 0 < fuel) :
    ∃ R, runSync cfg true fuel errorHandler
        (if mode then OperationLink else OperationCopy)
        (fun _ fsNow s d =>
          if mode then handleLink cfg true fsNow s d
          else handleCopy cfg true fsNow s d) fs = some R ∧
      (∀ a ∈ R.acts, a.isMutating = false) ∧
      R.saved = false ∧
      R.err = none ∧
      R.fs = fs ∧
      R.log.length = fl.length +
        (orphanedPaths cfg.manifest
          ((fl.map Prod.fst).foldl insertSet [])).length := by
  have hhf : ∀ (i : Nat) (fsNow : Fs) (s d : Path),
      ((fun (_ : Nat) fsNow s d =>
        if mode then handleLink cfg true fsNow s d
        else handleCopy cfg true fsNow s d) i fsNow s d).fs = fsNow ∧
      (∀ a ∈ ((fun (_ : Nat) fsNow s d =>
        if mode then handleLink cfg true fsNow s d
        else handleCopy cfg true fsNow s d) i fsNow s d).acts,
        a.isMutating = false) ∧
      (((fun (_ : Nat) fsNow s d =>
        if mode then handleLink cfg true fsNow s d
        else handleCopy cfg true fsNow s d) i fsNow s d).err = none ∨
       ((fun (_ : Nat) fsNow s d =>
        if mode then handleLink cfg true fsNow s d
        else handleCopy cfg true fsNow s d) i fsNow s d).err =
          some (.base .notNeeded)) := by
    intro i fsNow s d
    cases mode with
    | true => simpa using handleLink_dry cfg fsNow s d
    | false => simp [handleCopy_dry]
  obtain ⟨res, hres, hfs, herrN, hacts, hlog, hnm⟩ :=
    syncFiles_dry_spec cfg fuel errorHandler
      (if mode then OperationLink else OperationCopy)
      (fun _ fsNow s d =>
        if mode then handleLink cfg true fsNow s d
        else handleCopy cfg true fsNow s d) hhf hfuel fl [] fs
  refine ⟨⟨{ cfg with manifest :=
      (res.nextManifest.foldl insertSet
        ((orphanedPaths cfg.manifest res.nextManifest).foldl eraseManifest
          cfg.manifest)) },
    res.fs, res.acts ++ [],
    res.log ++ (orphanedPaths cfg.manifest res.nextManifest).map
      (fun f => ⟨OperationRemove, f, "", none⟩),
    res.attempted, none, false⟩, ?_, ?_, ?_, ?_, ?_, ?_⟩
  · unfold runSync
    rw [hfl]
    dsimp only
    rw [hres]
    dsimp only
    simp only [herrN, Option.isSome_none, Bool.false_eq_true, if_false]
    unfold autoclean
    rw [autocleanLoop_dry]
    rfl
  · intro a ha
    rw [List.append_nil] at ha
    exact hacts a ha
  · rfl
  · rfl
  · exact hfs
  · simp only [List.length_append, hlog, List.length_map, hnm]

/-- Witness for C5: a dry-run copy pass over the two-file fixture. -/
theorem runSync_dryRun_no_mutation_witness :
    ∃ R, runSync exCfg true 1 noErrorHandler
        (if false then OperationLink else OperationCopy)
        (fun _ fsNow s d =>
          if false then handleLink exCfg true fsNow s d
          else handleCopy exCfg true fsNow s d) exFs = some R ∧
      (∀ a ∈ R.acts, a.isMutating = false) ∧
      R.saved = false ∧
      R.err = none ∧
      R.fs = exFs ∧
      R.log.length =
        ([([".fileA"], "files"), ([".fileC"], "files")] : OrderedMap).length +
        (orphanedPaths exCfg.manifest
          ((([([".fileA"], "files"), ([".fileC"], "files")] :
            OrderedMap).map Prod.fst).foldl insertSet [])).length := by
  exact runSync_dryRun_no_mutation exCfg 1 noErrorHandler false exFs
    [([".fileA"], "files"), ([".fileC"], "files")] (by decide) (by decide)

/-- Counterexample for C5: in copy mode a dry-run pass performs none of
the decision probes that the real pass performs (dry-run `handleCopy`
returns before the already-linked probe), refuting "all decision probes
still occur". -/
theorem dryRun_copy_probes_counterexample :
    ((CopyAll exCfg true 1 noErrorHandler exFs).map
      (fun r => r.acts.filter (fun a => !a.isMutating))) = some [] ∧
    ((CopyAll exCfg false 2 noErrorHandler exFs).map
      (fun r => r.acts.filter (fun a => !a.isMutating))) ≠ some [] := by
  constructor
  · decide
  · decide

/-- Witness for C10: ejecting `.fileA` and `.fileC` when both already
exist in the target as plain files aborts at `.fileA` (under the
escalating handler), never attempts `.fileC`, and still unregisters both
paths from the manifest. -/
theorem ejectFiles_untracks_every_resolved_path_witness :
    [".fileA"] ∉ exEjectResult.cfg.manifest ∧
    [".fileC"] ∉ exEjectResult.cfg.manifest := by
  constructor
  · exact ejectFiles_untracks_every_resolved_path exCfgEject false 2
      noErrorHandler [[".fileA"], [".fileC"]] exFsEject
      [([".fileA"], "files"), ([".fileC"], "files")] exEjectResult
      (by decide) (by decide) [".fileA"] (by decide)
  · exact ejectFiles_untracks_every_resolved_path exCfgEject false 2
      noErrorHandler [[".fileA"], [".fileC"]] exFsEject
      [([".fileA"], "files"), ([".fileC"], "files")] exEjectResult
      (by decide) (by decide) [".fileC"] (by decide)

/-- `List.isPrefixOf` as an existence of a suffix. -/
theorem ipo_iff_exists : ∀ p q : Path, p.isPrefixOf q = true ↔ ∃ t, p ++ t = q := by
  intro p
  induction p with
  | nil => intro q; simp [List.isPrefixOf]
  | cons a as ih =>
    intro q
    cases q with
    | nil => simp [List.isPrefixOf]
    | cons b bs =>
      simp only [List.isPrefixOf, Bool.and_eq_true, beq_iff_eq, ih,
        List.cons_append, List.cons.injEq]
      constructor
      · rintro ⟨rfl, t, rfl⟩; exact ⟨t, rfl, rfl⟩
      · rintro ⟨t, rfl, rfl⟩; exact ⟨rfl, t, rfl⟩

/-- A list is a prefix of itself followed by anything. -/
theorem ipo_append (p t : Path) : p.isPrefixOf (p ++ t) = true :=
  (ipo_iff_exists p (p ++ t)).mpr ⟨t, rfl⟩

/-- Reflexivity of `isPrefixOf`. -/
theorem ipo_refl (p : Path) : p.isPrefixOf p = true :=
  (ipo_iff_exists p p).mpr ⟨[], List.append_nil p⟩

/-- Transitivity of `isPrefixOf`. -/
theorem ipo_trans {p q r : Path} (h₁ : p.isPrefixOf q = true)
    (h₂ : q.isPrefixOf r = true) : p.isPrefixOf r = true := by
  obtain ⟨t₁, rfl⟩ := (ipo_iff_exists p q).mp h₁
  obtain ⟨t₂, rfl⟩ := (ipo_iff_exists _ _).mp h₂
  exact (ipo_iff_exists _ _).mpr ⟨t₁ ++ t₂, (List.append_assoc p t₁ t₂).symm⟩

/-- Two prefixes of the same list are comparable. -/
theorem ipo_linear : ∀ (r p q : Path), p.isPrefixOf r = true →
    q.isPrefixOf r = true →
    p.isPrefixOf q = true ∨ q.isPrefixOf p = true := by
  intro r
  induction r with
  | nil =>
    intro p q hp hq
    obtain ⟨t₁, h₁⟩ := (ipo_iff_exists _ _).mp hp
    have : p = [] := by
      cases p with
      | nil => rfl
      | cons a as => exact absurd h₁ (by simp)
    subst this
    exact Or.inl (by simp [List.isPrefixOf])
  | cons c cs ih =>
    intro p q hp hq
    cases p with
    | nil => exact Or.inl (by simp [List.isPrefixOf])
    | cons a as =>
      cases q with
      | nil => exact Or.inr (by simp [List.isPrefixOf])
      | cons b bs =>
        simp only [List.isPrefixOf, Bool.and_eq_true, beq_iff_eq] at hp hq ⊢
        obtain ⟨rfl, hp'⟩ := hp
        obtain ⟨rfl, hq'⟩ := hq
        cases ih as bs hp' hq' with
        | inl h => exact Or.inl ⟨rfl, h⟩
        | inr h => exact Or.inr ⟨rfl, h⟩

/-- A prefix of an appended list is a prefix of the first part or an
extension of it. -/
theorem ipo_of_append {p a b : Path} (h : p.isPrefixOf (a ++ b) = true) :
    p.isPrefixOf a = true ∨ a.isPrefixOf p = true :=
  ipo_linear (a ++ b) p a h (ipo_append a b)

/-- Left cancellation of list append. -/
theorem append_cancel_left : ∀ (a b c : Path), a ++ b = a ++ c → b = c := by
  intro a
  induction a with
  | nil => intro b c h; exact h
  | cons x xs ih =>
    intro b c h
    simp only [List.cons_append, List.cons.injEq] at h
    exact ih b c h.2

/-- Keys inside a repo subtree are not comparable with the target root
when the dfm directory and the target are not nested in each other. -/
theorem zone_repo_key (path tgt : Path) (repo : String) (k : Path)
    (hcmp : path.isPrefixOf tgt = false ∧ tgt.isPrefixOf path = false)
    (hk : (path ++ [repo]).isPrefixOf k = true) :
    inTargetZone tgt k = false := by
  have hpathk : path.isPrefixOf k = true :=
    ipo_trans (ipo_append path [repo]) hk
  unfold inTargetZone
  rw [Bool.or_eq_false_iff]
  constructor
  · by_contra htk
    rw [Bool.not_eq_false] at htk
    cases ipo_linear k tgt path htk hpathk with
    | inl h => rw [h] at hcmp; exact Bool.noConfusion hcmp.2
    | inr h => rw [h] at hcmp; exact Bool.noConfusion hcmp.1
  · by_contra hkt
    rw [Bool.not_eq_false] at hkt
    have : path.isPrefixOf tgt = true := ipo_trans hpathk hkt
    rw [this] at hcmp
    exact Bool.noConfusion hcmp.1

/-- Looking a key up ignores filtered-out entries whose keys all differ
from it. -/
theorem lookupNode_filter (fs : Fs) (p : Path) (f : Path × Node → Bool)
    (hf : ∀ n, f (p, n) = true) :
    lookupNode (fs.filter f) p = lookupNode fs p := by
  induction fs with
  | nil => rfl
  | cons en rest ih =>
    obtain ⟨q, n⟩ := en
    by_cases hq : q = p
    · subst hq
      rw [List.filter_cons_of_pos (hf n)]
      simp [lookupNode]
    · cases hfe : f (q, n) with
      | true =>
        rw [List.filter_cons_of_pos hfe]
        simp only [lookupNode, if_neg hq]
        exact ih
      | false =>
        rw [List.filter_cons_of_neg (by simp [hfe])]
        simp only [lookupNode, if_neg hq]
        exact ih

/-- Off-zone lookups see only the off-zone entries. -/
theorem lookupNode_offZone (tgt : Path) (fs : Fs) (p : Path)
    (hp : inTargetZone tgt p = false) :
    lookupNode (offZone tgt fs) p = lookupNode fs p :=
  lookupNode_filter fs p _ (fun _ => by simp [hp])

/-- Two filesystems with the same off-zone entries agree on off-zone
lookups. -/
theorem lookupNode_frame (tgt : Path) (fs fs' : Fs) (p : Path)
    (hfr : offZone tgt fs' = offZone tgt fs)
    (hp : inTargetZone tgt p = false) :
    lookupNode fs' p = lookupNode fs p := by
  rw [← lookupNode_offZone tgt fs' p hp, hfr, lookupNode_offZone tgt fs p hp]

/-- Binding an in-zone key does not change the off-zone entries. -/
theorem setEntry_offZone (tgt : Path) (fs : Fs) (k : Path) (n : Node)
    (hk : inTargetZone tgt k = true) :
    offZone tgt (setEntry fs k n) = offZone tgt fs := by
  induction fs with
  | nil =>
    show List.filter _ [(k, n)] = List.filter _ []
    rw [List.filter_cons_of_neg (by simp [hk])]
  | cons en rest ih =>
    obtain ⟨q, m⟩ := en
    unfold setEntry
    by_cases hq : q = k
    · subst hq
      rw [if_pos rfl]
      show List.filter _ _ = List.filter _ _
      rw [List.filter_cons_of_neg (by simp [hk]),
        List.filter_cons_of_neg (by simp [hk])]
    · rw [if_neg hq]
      show List.filter _ ((q, m) :: setEntry rest k n) = List.filter _ _
      cases hfe : (!inTargetZone tgt q) with
      | true =>
        rw [List.filter_cons_of_pos (by simp [hfe]),
          List.filter_cons_of_pos (by simp [hfe])]
        rw [show List.filter (fun en => !inTargetZone tgt en.1)
          (setEntry rest k n) = offZone tgt (setEntry rest k n) from rfl, ih]
        rfl
      | false =>
        rw [List.filter_cons_of_neg (by simp [hfe]),
          List.filter_cons_of_neg (by simp [hfe])]
        exact ih

/-- Deleting an in-zone key does not change the off-zone entries. -/
theorem eraseEntry_offZone (tgt : Path) (fs : Fs) (k : Path)
    (hk : inTargetZone tgt k = true) :
    offZone tgt (eraseEntry fs k) = offZone tgt fs := by
  induction fs with
  | nil => rfl
  | cons en rest ih =>
    obtain ⟨q, m⟩ := en
    unfold eraseEntry
    by_cases hq : q = k
    · subst hq
      rw [List.filter_cons_of_neg (by simp)]
      show offZone tgt (eraseEntry rest q) = List.filter _ _
      rw [List.filter_cons_of_neg (by simp [hk])]
      exact ih
    · rw [List.filter_cons_of_pos (by simp [hq])]
      show List.filter _ ((q, m) :: List.filter _ rest) = List.filter _ _
      cases hfe : (!inTargetZone tgt q) with
      | true =>
        rw [List.filter_cons_of_pos (by simp [hfe]),
          List.filter_cons_of_pos (by simp [hfe])]
        exact congrArg _ ih
      | false =>
        rw [List.filter_cons_of_neg (by simp [hfe]),
          List.filter_cons_of_neg (by simp [hfe])]
        exact ih

/-- Creating the directory chain below an in-zone path does not change
the off-zone entries. -/
theorem mkdirChain_offZone (tgt : Path) :
    ∀ (rest : List String) (fs : Fs) (pre : Path) (fs' : Fs),
    (∀ q : Path, q.isPrefixOf (pre ++ rest.map id) = true →
      inTargetZone tgt q = true) →
    mkdirChain fs pre rest = .ok fs' →
    offZone tgt fs' = offZone tgt fs := by
  intro rest
  induction rest with
  | nil =>
    intro fs pre fs' _ h
    injection h with h'
    rw [h']
  | cons c cs ih =>
    intro fs pre fs' hz h
    unfold mkdirChain at h
    cases hl : lookupNode fs (pre ++ [c]) with
    | none =>
      rw [hl] at h
      dsimp only at h
      have hz' : ∀ q : Path, q.isPrefixOf ((pre ++ [c]) ++ cs.map id) = true →
          inTargetZone tgt q = true := by
        intro q hq
        apply hz
        rw [show pre ++ (c :: cs).map id = (pre ++ [c]) ++ cs.map id by simp]
        exact hq
      have := ih (setEntry fs (pre ++ [c]) .dir) (pre ++ [c]) fs' hz' h
      rw [this]
      apply setEntry_offZone
      apply hz
      rw [show pre ++ (c :: cs).map id = (pre ++ [c]) ++ cs.map id by simp]
      exact ipo_append _ _
    | some node =>
      rw [hl] at h
      cases node with
      | dir =>
        dsimp only at h
        have hz' : ∀ q : Path, q.isPrefixOf ((pre ++ [c]) ++ cs.map id) = true →
            inTargetZone tgt q = true := by
          intro q hq
          apply hz
          rw [show pre ++ (c :: cs).map id = (pre ++ [c]) ++ cs.map id by simp]
          exact hq
        exact ih fs (pre ++ [c]) fs' hz' h
      | regular cnt => exact Except.noConfusion h
      | symlink t => exact Except.noConfusion h

/-- Every path is in its own target zone's ancestry when it extends the
target root. -/
theorem inTargetZone_of_under (tgt q : Path) (h : tgt.isPrefixOf q = true) :
    inTargetZone tgt q = true := by
  unfold inTargetZone
  rw [h, Bool.true_or]

/-- Ancestors of the target root are in the zone. -/
theorem inTargetZone_of_above (tgt q : Path) (h : q.isPrefixOf tgt = true) :
    inTargetZone tgt q = true := by
  unfold inTargetZone
  rw [h, Bool.or_true]

/-- Every prefix of an extension of the target root is in the zone. -/
theorem inTargetZone_of_ipo_append (tgt x q : Path)
    (h : q.isPrefixOf (tgt ++ x) = true) : inTargetZone tgt q = true := by
  cases ipo_of_append h with
  | inl h' => exact inTargetZone_of_above tgt q h'
  | inr h' => exact inTargetZone_of_under tgt q h'

/-- A link operation touches only in-zone entries (its directory chain
stays below or above the target root, and the link itself is under
it). -/
theorem handleLink_offZone (cfg : Config) (dryRun : Bool) (fs : Fs)
    (s d : Path) (hd : cfg.targetPath.isPrefixOf d = true) :
    offZone cfg.targetPath (handleLink cfg dryRun fs s d).fs =
      offZone cfg.targetPath fs := by
  unfold handleLink
  cases hil : isLinkedFile fs s d with
  | mk acts₁ done =>
    dsimp only
    cases done with
    | true => rw [if_pos rfl]
    | false =>
      rw [if_neg (by decide)]
      cases hdr : dryRun with
      | true => rw [if_pos rfl]
      | false =>
        rw [if_neg (by decide)]
        unfold MakeDirAll mkdirAll
        cases hmc : mkdirChain fs []
            (cfg.targetPath ++ ((d.drop cfg.targetPath.length).dropLast)) with
        | error e => rfl
        | ok fs₁ =>
          dsimp only
          have hfr₁ : offZone cfg.targetPath fs₁ = offZone cfg.targetPath fs := by
            apply mkdirChain_offZone cfg.targetPath _ fs [] fs₁ _ hmc
            intro q hq
            apply inTargetZone_of_ipo_append cfg.targetPath
              ((d.drop cfg.targetPath.length).dropLast)
            simpa using hq
          unfold linkFile
          cases hsome : (lookupNode fs₁ d).isSome with
          | true =>
            rw [if_pos rfl]
            exact hfr₁
          | false =>
            rw [if_neg (by decide)]
            cases hdir : dirExists fs₁ d.dropLast with
            | true =>
              rw [if_pos rfl]
              dsimp only
              rw [setEntry_offZone cfg.targetPath fs₁ d (.symlink s)
                (inTargetZone_of_under cfg.targetPath d hd)]
              exact hfr₁
            | false =>
              rw [if_neg (by decide)]
              exact hfr₁

/-- The cleanup walk of empty directories strictly below the target
root does not change the off-zone entries. -/
theorem cleanDirectoriesAux_offZone (tgt : Path) :
    ∀ (n : Nat) (fs : Fs) (e : Path),
    offZone tgt (cleanDirectoriesAux n fs e tgt).1 = offZone tgt fs := by
  intro n
  induction n with
  | zero => intro fs e; rfl
  | succ n ih =>
    intro fs e
    unfold cleanDirectoriesAux
    by_cases hc : tgt.length < e.length ∧ tgt.isPrefixOf e
    · rw [if_pos hc]
      cases hl : lookupNode fs e with
      | none => simp [fsReadDir, hl]
      | some node =>
        cases node with
        | regular c => simp [fsReadDir, hl]
        | symlink t => simp [fsReadDir, hl]
        | dir =>
          by_cases hch : children fs e = []
          · simp only [fsReadDir, hl, hch, fsRemove, if_pos,
              List.length_nil, Nat.lt_irrefl, Bool.false_eq_true, if_false]
            rcases hrec : cleanDirectoriesAux n (eraseEntry fs e)
                e.dropLast tgt with ⟨fs₂, acts₃, err⟩
            dsimp only
            have h₁ := ih (eraseEntry fs e) e.dropLast
            rw [hrec] at h₁
            dsimp only at h₁
            rw [h₁]
            exact eraseEntry_offZone tgt fs e
              (inTargetZone_of_under tgt e hc.2)
          · have hlen0 : 0 < (children fs e).length :=
              List.length_pos.mpr hch
            simp [fsReadDir, hl, hch, hlen0]
    · rw [if_neg hc]

/-- One autoclean removal does not change the off-zone entries. -/
theorem autocleanRemove_offZone (tgt : Path) (dryRun : Bool) (fs : Fs)
    (f : Path) :
    offZone tgt (autocleanRemove tgt dryRun fs f).1 = offZone tgt fs := by
  unfold autocleanRemove
  cases dryRun with
  | true => rw [if_pos rfl]
  | false =>
    rw [if_neg (by decide)]
    cases hrm : fsRemove fs (tgt ++ f) with
    | mk acts₁ r =>
      cases r with
      | error e => rfl
      | ok fs₁ =>
        dsimp only
        rcases hcd : cleanDirectories fs₁ (tgt ++ f).dropLast tgt with
          ⟨fs₂, acts₂, err⟩
        dsimp only
        have h₂ : offZone tgt fs₂ = offZone tgt fs₁ := by
          have := cleanDirectoriesAux_offZone tgt ((tgt ++ f).dropLast).length
            fs₁ (tgt ++ f).dropLast
          unfold cleanDirectories at hcd
          rw [hcd] at this
          exact this
        rw [h₂]
        have hfs₁ : fs₁ = eraseEntry fs (tgt ++ f) := by
          unfold fsRemove at hrm
          cases hl : lookupNode fs (tgt ++ f) with
          | none =>
            rw [hl] at hrm
            injection hrm with h₁ h₂
            exact Except.noConfusion h₂
          | some node =>
            rw [hl] at hrm
            cases node with
            | regular c =>
              injection hrm with h₁ h₂
              injection h₂ with h₃
              exact h₃.symm
            | symlink t =>
              injection hrm with h₁ h₂
              injection h₂ with h₃
              exact h₃.symm
            | dir =>
              by_cases hch : children fs (tgt ++ f) = []
              · rw [if_pos hch] at hrm
                injection hrm with h₁ h₂
                injection h₂ with h₃
                exact h₃.symm
              · rw [if_neg hch] at hrm
                injection hrm with h₁ h₂
                exact Except.noConfusion h₂
        rw [hfs₁]
        exact eraseEntry_offZone tgt fs (tgt ++ f)
          (inTargetZone_of_under tgt (tgt ++ f) (ipo_append tgt f))

/-- The autoclean removal loop does not change the off-zone entries. -/
theorem autocleanLoop_offZone (tgt : Path) (dryRun : Bool) :
    ∀ (toRemove : List Path) (fs : Fs) (manifest : List Path),
    offZone tgt (autocleanLoop tgt dryRun toRemove fs manifest).1 =
      offZone tgt fs := by
  intro toRemove
  induction toRemove with
  | nil => intro fs manifest; rfl
  | cons f rest ih =>
    intro fs manifest
    rw [autocleanLoop_cons]
    rcases h₁ : autocleanRemove tgt dryRun fs f with ⟨fs₁, acts₁, err⟩
    dsimp only
    rcases h₂ : autocleanLoop tgt dryRun rest fs₁
        (if err = none then eraseManifest manifest f else manifest) with
      ⟨fs₂, manifest₂, acts₂, log₂⟩
    dsimp only
    have hr := autocleanRemove_offZone tgt dryRun fs f
    rw [h₁] at hr
    dsimp only at hr
    have hl := ih fs₁ (if err = none then eraseManifest manifest f else manifest)
    rw [h₂] at hl
    dsimp only at hl
    rw [hl, hr]

/-- The retry engine preserves any transitive relation every operation
invocation preserves. -/
theorem processWithRetry_preserves (R : Fs → Fs → Prop)
    (htrans : ∀ a b c, R a b → R b c → R a c)
    (errorHandler : Handler) (process : ProcessFun)
    (hstep : ∀ i f, R f (process i f).fs) :
    ∀ (fuel calls consults : Nat) (fs : Fs) (acts : List Action)
      (fs' : Fs) (acts' : List Action) (out : RetryOutcome),
    processWithRetry errorHandler process fuel calls consults fs acts =
      some (fs', acts', out) → R fs fs' := by
  intro fuel
  induction fuel with
  | zero => intro _ _ _ _ _ _ _ h; exact Option.noConfusion h
  | succ n ih =>
    intro calls consults fs acts fs' acts' out h
    unfold processWithRetry at h
    rcases hp : process calls fs with ⟨fs₁, acts₁, err⟩
    rw [hp] at h
    have hR : R fs fs₁ := by
      have := hstep calls fs
      rw [hp] at this
      exact this
    cases err with
    | none =>
      dsimp only at h
      simp only [Option.some.injEq, Prod.mk.injEq] at h
      rw [← h.1]
      exact hR
    | some rawErr =>
      dsimp only at h
      cases hnn : isNotNeeded rawErr with
      | true =>
        rw [if_pos hnn] at h
        simp only [Option.some.injEq, Prod.mk.injEq] at h
        rw [← h.1]
        exact hR
      | false =>
        rw [if_neg (by simp [hnn])] at h
        cases hh : errorHandler consults rawErr with
        | none =>
          rw [hh] at h
          dsimp only at h
          simp only [Option.some.injEq, Prod.mk.injEq] at h
          rw [← h.1]
          exact hR
        | some newErr =>
          rw [hh] at h
          dsimp only at h
          by_cases hne : newErr = .base .retry
          · rw [if_pos hne] at h
            exact htrans _ _ _ hR (ih _ _ _ _ _ _ _ h)
          · rw [if_neg hne] at h
            simp only [Option.some.injEq, Prod.mk.injEq] at h
            rw [← h.1]
            exact hR

/-- A sync pass preserves any reflexive transitive relation every
per-file operation preserves (at the source/destination paths the pass
actually uses). -/
theorem syncFiles_preserves (cfg : Config) (fuel : Nat)
    (errorHandler : Handler) (operation : String) (handleFile : HandleFile)
    (R : Fs → Fs → Prop)
    (hrefl : ∀ f, R f f)
    (htrans : ∀ a b c, R a b → R b c → R a c)
    (hstep : ∀ (i : Nat) (f : Fs) (rel : Path) (repo : String),
      R f (handleFile i f (RepoPath cfg repo rel) (TargetPath cfg rel)).fs) :
    ∀ (l : List (Path × String)) (nm : List Path) (fs : Fs)
      (res : SyncResult),
    syncFiles cfg fuel errorHandler operation handleFile l nm fs = some res →
    R fs res.fs := by
  intro l
  induction l with
  | nil =>
    intro nm fs res h
    injection h with h'
    rw [← h']
    exact hrefl fs
  | cons hd rest ih =>
    intro nm fs res h
    obtain ⟨relative, repo⟩ := hd
    rw [syncFiles_cons] at h
    cases hpr : processWithRetry errorHandler
        (syncProcess handleFile (RepoPath cfg repo relative)
          (TargetPath cfg relative) relative) fuel 0 0 fs [] with
    | none => rw [hpr] at h; exact Option.noConfusion h
    | some trip =>
      obtain ⟨fs', acts, out⟩ := trip
      rw [hpr] at h
      dsimp only at h
      have hR1 : R fs fs' := processWithRetry_preserves R htrans errorHandler
        (syncProcess handleFile (RepoPath cfg repo relative)
          (TargetPath cfg relative) relative)
        (fun i f => hstep i f relative repo) fuel 0 0 fs [] fs' acts out hpr
      cases hab : out.aborted with
      | true =>
        rw [hab, if_pos rfl] at h
        injection h with h'
        rw [← h']
        exact hR1
      | false =>
        rw [hab, if_neg (by decide)] at h
        cases hr : syncFiles cfg fuel errorHandler operation handleFile rest
            (insertSet nm relative) fs' with
        | none => rw [hr] at h; exact Option.noConfusion h
        | some res' =>
          rw [hr] at h
          injection h with h'
          rw [← h']
          exact htrans fs fs' res'.fs hR1 (ih (insertSet nm relative) fs' res' hr)

/-- Looking up the key just bound. -/
theorem lookupNode_setEntry_self (fs : Fs) (k : Path) (n : Node) :
    lookupNode (setEntry fs k n) k = some n := by
  induction fs with
  | nil => simp [setEntry, lookupNode]
  | cons en rest ih =>
    obtain ⟨q, m⟩ := en
    unfold setEntry
    by_cases hq : q = k
    · subst hq
      rw [if_pos rfl]
      simp [lookupNode]
    · rw [if_neg hq]
      simp only [lookupNode, if_neg hq]
      exact ih

/-- Binding one key leaves lookups of other keys unchanged. -/
theorem lookupNode_setEntry_ne (fs : Fs) (k p : Path) (n : Node)
    (hne : ¬ p = k) :
    lookupNode (setEntry fs k n) p = lookupNode fs p := by
  have hkp : ¬ k = p := fun h => hne h.symm
  induction fs with
  | nil =>
    simp only [setEntry, lookupNode]
    rw [if_neg hkp]
  | cons en rest ih =>
    obtain ⟨q, m⟩ := en
    unfold setEntry
    by_cases hq : q = k
    · subst hq
      rw [if_pos rfl]
      simp only [lookupNode]
      rw [if_neg hkp, if_neg hkp]
    · rw [if_neg hq]
      simp only [lookupNode]
      by_cases hqp : q = p
      · rw [if_pos hqp, if_pos hqp]
      · rw [if_neg hqp, if_neg hqp]
        exact ih

/-- Deleting one key leaves lookups of other keys unchanged. -/
theorem lookupNode_eraseEntry_ne (fs : Fs) (k p : Path) (hne : ¬ p = k) :
    lookupNode (eraseEntry fs k) p = lookupNode fs p :=
  lookupNode_filter fs p _ (fun _ => by simp [hne])

/-- The directory chain only creates missing entries: every existing
binding survives. -/
theorem mkdirChain_mono :
    ∀ (rest : List String) (fs : Fs) (pre : Path) (fs' : Fs) (p : Path)
      (v : Node),
    mkdirChain fs pre rest = .ok fs' → lookupNode fs p = some v →
    lookupNode fs' p = some v := by
  intro rest
  induction rest with
  | nil =>
    intro fs pre fs' p v h hv
    injection h with h'
    rw [← h']
    exact hv
  | cons c cs ih =>
    intro fs pre fs' p v h hv
    unfold mkdirChain at h
    cases hl : lookupNode fs (pre ++ [c]) with
    | none =>
      rw [hl] at h
      dsimp only at h
      apply ih _ _ _ _ _ h
      rw [lookupNode_setEntry_ne]
      · exact hv
      · intro hpk
        rw [hpk, hl] at hv
        exact Option.noConfusion hv
    | some node =>
      rw [hl] at h
      cases node with
      | dir => exact ih _ _ _ _ _ h hv
      | regular cnt => exact Except.noConfusion h
      | symlink t => exact Except.noConfusion h

/-- A link operation only creates: every existing binding survives it
(the symlink is only written where no binding existed). -/
theorem handleLink_mono (cfg : Config) (dryRun : Bool) (fs : Fs)
    (s d p : Path) (v : Node) (hv : lookupNode fs p = some v) :
    lookupNode (handleLink cfg dryRun fs s d).fs p = some v := by
  unfold handleLink
  cases hil : isLinkedFile fs s d with
  | mk acts₁ done =>
    dsimp only
    cases done with
    | true => rw [if_pos rfl]; exact hv
    | false =>
      rw [if_neg (by decide)]
      cases hdr : dryRun with
      | true => rw [if_pos rfl]; exact hv
      | false =>
        rw [if_neg (by decide)]
        unfold MakeDirAll mkdirAll
        cases hmc : mkdirChain fs []
            (cfg.targetPath ++ ((d.drop cfg.targetPath.length).dropLast)) with
        | error e => exact hv
        | ok fs₁ =>
          dsimp only
          have hv₁ : lookupNode fs₁ p = some v :=
            mkdirChain_mono _ fs [] fs₁ p v hmc hv
          unfold linkFile
          cases hsome : (lookupNode fs₁ d).isSome with
          | true =>
            rw [if_pos rfl]
            exact hv₁
          | false =>
            rw [if_neg (by decide)]
            cases hdir : dirExists fs₁ d.dropLast with
            | true =>
              rw [if_pos rfl]
              dsimp only
              rw [lookupNode_setEntry_ne]
              · exact hv₁
              · intro hpd
                rw [hpd] at hv₁
                rw [hv₁] at hsome
                exact Bool.noConfusion hsome
            | false =>
              rw [if_neg (by decide)]
              exact hv₁

/-- Filtering the keys by a predicate that holds only off-zone sees
only the off-zone entries. -/
theorem mapFst_filter_offZone (tgt : Path) (fs : Fs) (pred : Path → Bool)
    (hpred : ∀ p, pred p = true → inTargetZone tgt p = false) :
    (fs.map Prod.fst).filter pred =
      ((offZone tgt fs).map Prod.fst).filter pred := by
  induction fs with
  | nil => rfl
  | cons en rest ih =>
    obtain ⟨q, n⟩ := en
    unfold offZone
    rw [List.map_cons]
    cases hpq : pred q with
    | true =>
      have hz := hpred q hpq
      rw [List.filter_cons_of_pos hpq,
        List.filter_cons_of_pos (by simp [hz]),
        List.map_cons, List.filter_cons_of_pos hpq]
      exact congrArg (List.cons q) ih
    | false =>
      rw [List.filter_cons_of_neg (by simp [hpq])]
      cases hzq : inTargetZone tgt q with
      | true =>
        rw [List.filter_cons_of_neg (by simp [hzq])]
        exact ih
      | false =>
        rw [List.filter_cons_of_pos (by simp [hzq]),
          List.map_cons, List.filter_cons_of_neg (by simp [hpq])]
        exact ih

/-- Walking a subtree that lies entirely off-zone is unaffected by
in-zone changes. -/
theorem walkUnder_frame (tgt : Path) (fs fs' : Fs) (q : Path)
    (hfr : offZone tgt fs' = offZone tgt fs)
    (hz : ∀ p : Path, q.isPrefixOf p = true → inTargetZone tgt p = false) :
    walkUnder fs' q = walkUnder fs q := by
  unfold walkUnder
  have hfun : (fun p => q.isPrefixOf p && !(lookupNode fs' p = some Node.dir)) =
      (fun p => q.isPrefixOf p && !(lookupNode fs p = some Node.dir)) := by
    funext p
    cases hip : q.isPrefixOf p with
    | false => simp
    | true =>
      rw [lookupNode_frame tgt fs fs' p hfr (hz p hip)]
  rw [hfun]
  have hpred : ∀ p : Path,
      (q.isPrefixOf p && !(lookupNode fs p = some Node.dir)) = true →
      inTargetZone tgt p = false := by
    intro p hp
    rw [Bool.and_eq_true] at hp
    exact hz p hp.1
  rw [mapFst_filter_offZone tgt fs' _ hpred,
    mapFst_filter_offZone tgt fs _ hpred, hfr]

/-- Scanning one input path inside an off-zone root is unaffected by
in-zone changes. -/
theorem populateFileList_frame (tgt : Path) (fs fs' : Fs) (root fn : Path)
    (om : OrderedMap) (v : String)
    (hfr : offZone tgt fs' = offZone tgt fs)
    (hz : ∀ p : Path, root.isPrefixOf p = true → inTargetZone tgt p = false) :
    populateFileList fs' root fn om v = populateFileList fs root fn om v := by
  unfold populateFileList
  rw [lookupNode_frame tgt fs fs' (root ++ fn) hfr (hz _ (ipo_append root fn))]
  cases lookupNode fs (root ++ fn) with
  | none => rfl
  | some node =>
    dsimp only
    rw [walkUnder_frame tgt fs fs' (root ++ fn) hfr
      (fun p hp => hz p (ipo_trans (ipo_append root fn) hp))]

/-- The per-input repo scan is unaffected by in-zone changes when the
dfm directory and the target are not nested in each other (and is also
insensitive to the manifest field of the configuration). -/
theorem populateRepos_frame (tgt : Path) (fs fs' : Fs) (cfg cfg' : Config)
    (hpath : cfg'.path = cfg.path)
    (hcmp : cfg.path.isPrefixOf tgt = false ∧ tgt.isPrefixOf cfg.path = false)
    (hfr : offZone tgt fs' = offZone tgt fs) :
    ∀ (repos : List String) (p : Path) (om : OrderedMap) (found : Bool),
    populateRepos fs' cfg' p repos om found =
      populateRepos fs cfg p repos om found := by
  intro repos
  induction repos with
  | nil => intro p om found; rfl
  | cons repo rest ih =>
    intro p om found
    unfold populateRepos
    have hroot : RepoPath cfg' repo [] = RepoPath cfg repo [] := by
      unfold RepoPath
      rw [hpath]
    rw [hroot]
    have hz : ∀ q : Path, (RepoPath cfg repo []).isPrefixOf q = true →
        inTargetZone tgt q = false := by
      intro q hq
      apply zone_repo_key cfg.path tgt repo q hcmp
      have he : RepoPath cfg repo [] = cfg.path ++ [repo] := by
        unfold RepoPath
        simp
      rw [he] at hq
      exact hq
    rw [populateFileList_frame tgt fs fs' (RepoPath cfg repo []) p om repo
      hfr hz]
    cases hpf : populateFileList fs (RepoPath cfg repo []) p om repo with
    | ok om' =>
      dsimp only
      exact ih p om' true
    | error e =>
      dsimp only
      cases hne : isNotExistErr e with
      | true =>
        rw [if_pos rfl, if_pos rfl]
        exact ih p om found
      | false =>
        rw [if_neg (by decide), if_neg (by decide)]

/-- Resolution reads only the repo subtrees: it is unaffected by
in-zone filesystem changes, and by the manifest field, when the dfm
directory and the target are not nested in each other. -/
theorem buildFileList_frame (tgt : Path) (fs fs' : Fs) (cfg cfg' : Config)
    (hpath : cfg'.path = cfg.path) (hrepos : cfg'.repos = cfg.repos)
    (hcmp : cfg.path.isPrefixOf tgt = false ∧ tgt.isPrefixOf cfg.path = false)
    (hfr : offZone tgt fs' = offZone tgt fs) :
    ∀ (l : List Path) (om : OrderedMap),
    buildFileList fs' cfg' l om = buildFileList fs cfg l om := by
  intro l
  induction l with
  | nil => intro om; rfl
  | cons p rest ih =>
    intro om
    unfold buildFileList
    rw [hrepos,
      populateRepos_frame tgt fs fs' cfg cfg' hpath hcmp hfr cfg.repos p om
        false]
    cases hpr : populateRepos fs cfg p cfg.repos om false with
    | error e => rfl
    | ok pair =>
      obtain ⟨om', found⟩ := pair
      dsimp only
      cases found with
      | true =>
        rw [if_pos rfl, if_pos rfl]
        exact ih om'
      | false =>
        rw [if_neg (by decide), if_neg (by decide)]

/-- The directory chain fails only with an `os.PathError` from
`mkdir`. -/
theorem mkdirChain_err :
    ∀ (rest : List String) (fs : Fs) (pre : Path) (e : GoErr),
    mkdirChain fs pre rest = .error e →
    ∃ q m, e = .base (.pathErr "mkdir" q m) := by
  intro rest
  induction rest with
  | nil =>
    intro fs pre e h
    exact Except.noConfusion h
  | cons c cs ih =>
    intro fs pre e h
    unfold mkdirChain at h
    cases hl : lookupNode fs (pre ++ [c]) with
    | none =>
      rw [hl] at h
      exact ih _ _ _ h
    | some node =>
      rw [hl] at h
      cases node with
      | dir => exact ih _ _ _ h
      | regular cnt =>
        injection h with h'
        exact ⟨pre ++ [c], "not a directory", h'.symm⟩
      | symlink t =>
        injection h with h'
        exact ⟨pre ++ [c], "not a directory", h'.symm⟩

/-- A real (non-dry) link operation that returns success leaves the
destination bound to a symlink to the source. -/
theorem handleLink_success_linked (cfg : Config) (fs : Fs) (s d : Path)
    (h : (handleLink cfg false fs s d).err = none) :
    lookupNode (handleLink cfg false fs s d).fs d = some (.symlink s) := by
  unfold handleLink at h ⊢
  cases hil : isLinkedFile fs s d with
  | mk acts₁ done =>
    rw [hil] at h
    dsimp only at h ⊢
    cases done with
    | true =>
      rw [if_pos rfl] at h
      exact Option.noConfusion h
    | false =>
      rw [if_neg (by decide)] at h ⊢
      rw [if_neg (by decide)] at h ⊢
      unfold MakeDirAll mkdirAll at h ⊢
      cases hmc : mkdirChain fs []
          (cfg.targetPath ++ ((d.drop cfg.targetPath.length).dropLast)) with
      | error e =>
        rw [hmc] at h
        exact Option.noConfusion h
      | ok fs₁ =>
        rw [hmc] at h
        dsimp only at h ⊢
        unfold linkFile at h ⊢
        cases hsome : (lookupNode fs₁ d).isSome with
        | true =>
          rw [hsome] at h
          rw [if_pos rfl] at h
          exact Option.noConfusion h
        | false =>
          rw [hsome] at h
          rw [if_neg (by decide)] at h ⊢
          cases hdir : dirExists fs₁ d.dropLast with
          | true =>
            rw [hdir] at h
            rw [if_pos rfl] at h ⊢
            exact lookupNode_setEntry_self fs₁ d (.symlink s)
          | false =>
            rw [hdir] at h
            rw [if_neg (by decide)] at h
            exact Option.noConfusion h

/-- A wrapped base error carries the `ErrNotNeeded` cause exactly when
the base error is `ErrNotNeeded`. -/
theorem isNotNeeded_wrap_base (b : BaseErr) (rel : Path) :
    isNotNeeded (wrapFileError (.base b) rel) = true ↔ b = .notNeeded := by
  cases b <;> simp [wrapFileError, errMessage, isNotNeeded]

/-- A real link operation fails only with a base error, and fails with
`ErrNotNeeded` only from the already-linked probe — in which case the
filesystem is untouched and the destination is already the wanted
symlink. -/
theorem handleLink_err_cases (cfg : Config) (fs : Fs) (s d : Path) (e : GoErr)
    (h : (handleLink cfg false fs s d).err = some e) :
    ∃ b, e = .base b ∧
      (b = .notNeeded →
        (handleLink cfg false fs s d).fs = fs ∧
        lookupNode fs d = some (.symlink s)) := by
  unfold handleLink at h ⊢
  cases hil : isLinkedFile fs s d with
  | mk acts₁ done =>
    rw [hil] at h
    dsimp only at h ⊢
    cases done with
    | true =>
      rw [if_pos rfl] at h ⊢
      injection h with h'
      refine ⟨.notNeeded, h'.symm, fun _ => ⟨rfl, ?_⟩⟩
      unfold isLinkedFile at hil
      cases hl : lookupNode fs d with
      | none =>
        rw [hl] at hil
        injection hil with h₁ h₂
        exact Bool.noConfusion h₂
      | some node =>
        rw [hl] at hil
        cases node with
        | regular c =>
          injection hil with h₁ h₂
          exact Bool.noConfusion h₂
        | dir =>
          injection hil with h₁ h₂
          exact Bool.noConfusion h₂
        | symlink t =>
          injection hil with h₁ h₂
          have ht : t = s := of_decide_eq_true h₂
          rw [ht]
    | false =>
      rw [if_neg (by decide)] at h ⊢
      rw [if_neg (by decide)] at h ⊢
      unfold MakeDirAll mkdirAll at h ⊢
      cases hmc : mkdirChain fs []
          (cfg.targetPath ++ ((d.drop cfg.targetPath.length).dropLast)) with
      | error e₂ =>
        rw [hmc] at h
        injection h with h'
        obtain ⟨q, m, hqm⟩ := mkdirChain_err _ fs [] e₂ hmc
        refine ⟨.pathErr "mkdir" q m, by rw [← h', hqm], fun hb => ?_⟩
        exact BaseErr.noConfusion hb
      | ok fs₁ =>
        rw [hmc] at h
        dsimp only at h ⊢
        unfold linkFile at h ⊢
        cases hsome : (lookupNode fs₁ d).isSome with
        | true =>
          rw [hsome] at h
          rw [if_pos rfl] at h
          injection h with h'
          refine ⟨.pathErr "symlink" d "file exists", h'.symm, fun hb => ?_⟩
          exact BaseErr.noConfusion hb
        | false =>
          rw [hsome] at h
          rw [if_neg (by decide)] at h
          cases hdir : dirExists fs₁ d.dropLast with
          | true =>
            rw [hdir] at h
            rw [if_pos rfl] at h
            exact Option.noConfusion h
          | false =>
            rw [hdir] at h
            rw [if_neg (by decide)] at h
            injection h with h'
            refine ⟨.notExist "symlink" d, h'.symm, fun hb => ?_⟩
            exact BaseErr.noConfusion hb

/-- The empty-directory cleanup never removes a symlink binding (it
deletes only directory nodes). -/
theorem cleanDirectoriesAux_keeps_symlink (ppath t : Path) :
    ∀ (n : Nat) (fs : Fs) (e root : Path),
    lookupNode fs ppath = some (.symlink t) →
    lookupNode (cleanDirectoriesAux n fs e root).1 ppath =
      some (.symlink t) := by
  intro n
  induction n with
  | zero => intro fs e root hv; exact hv
  | succ n ih =>
    intro fs e root hv
    unfold cleanDirectoriesAux
    by_cases hc : root.length < e.length ∧ root.isPrefixOf e
    · rw [if_pos hc]
      cases hl : lookupNode fs e with
      | none => simpa [fsReadDir, hl] using hv
      | some node =>
        cases node with
        | regular c => simpa [fsReadDir, hl] using hv
        | symlink tt => simpa [fsReadDir, hl] using hv
        | dir =>
          by_cases hch : children fs e = []
          · simp only [fsReadDir, hl, hch, fsRemove, if_pos,
              List.length_nil, Nat.lt_irrefl, Bool.false_eq_true, if_false]
            rcases hrec : cleanDirectoriesAux n (eraseEntry fs e)
                e.dropLast root with ⟨fs₂, acts₃, err⟩
            dsimp only
            have hne : ¬ ppath = e := by
              intro hpe
              rw [hpe, hl] at hv
              injection hv with h'
              exact Node.noConfusion h'
            have hv₁ : lookupNode (eraseEntry fs e) ppath =
                some (.symlink t) := by
              rw [lookupNode_eraseEntry_ne fs e ppath hne]
              exact hv
            have := ih (eraseEntry fs e) e.dropLast root hv₁
            rw [hrec] at this
            exact this
          · have hlen0 : 0 < (children fs e).length :=
              List.length_pos.mpr hch
            simpa [fsReadDir, hl, hch, hlen0] using hv
    · rw [if_neg hc]
      exact hv

/-- One autoclean removal of a different path keeps an existing symlink
binding. -/
theorem autocleanRemove_keeps_symlink (tgt f ppath t : Path) (fs : Fs)
    (hne : ¬ ppath = tgt ++ f)
    (hv : lookupNode fs ppath = some (.symlink t)) :
    lookupNode (autocleanRemove tgt false fs f).1 ppath =
      some (.symlink t) := by
  unfold autocleanRemove
  rw [if_neg (by decide)]
  cases hrm : fsRemove fs (tgt ++ f) with
  | mk acts₁ r =>
    cases r with
    | error e => exact hv
    | ok fs₁ =>
      dsimp only
      have hfs₁ : fs₁ = eraseEntry fs (tgt ++ f) := by
        unfold fsRemove at hrm
        cases hl : lookupNode fs (tgt ++ f) with
        | none =>
          rw [hl] at hrm
          injection hrm with h₁ h₂
          exact Except.noConfusion h₂
        | some node =>
          rw [hl] at hrm
          cases node with
          | regular c =>
            injection hrm with h₁ h₂
            injection h₂ with h₃
            exact h₃.symm
          | symlink tt =>
            injection hrm with h₁ h₂
            injection h₂ with h₃
            exact h₃.symm
          | dir =>
            by_cases hch : children fs (tgt ++ f) = []
            · rw [if_pos hch] at hrm
              injection hrm with h₁ h₂
              injection h₂ with h₃
              exact h₃.symm
            · rw [if_neg hch] at hrm
              injection hrm with h₁ h₂
              exact Except.noConfusion h₂
      rcases hcd : cleanDirectories fs₁ (tgt ++ f).dropLast tgt with
        ⟨fs₂, acts₂, err⟩
      dsimp only
      have hv₁ : lookupNode fs₁ ppath = some (.symlink t) := by
        rw [hfs₁, lookupNode_eraseEntry_ne fs (tgt ++ f) ppath hne]
        exact hv
      have := cleanDirectoriesAux_keeps_symlink ppath t
        ((tgt ++ f).dropLast).length fs₁ (tgt ++ f).dropLast tgt hv₁
      unfold cleanDirectories at hcd
      rw [hcd] at this
      exact this

/-- The autoclean removal loop keeps a symlink binding none of its
orphans point at. -/
theorem autocleanLoop_keeps_symlink (tgt ppath t : Path) :
    ∀ (toRemove : List Path) (fs : Fs) (manifest : List Path),
    (∀ f ∈ toRemove, ¬ ppath = tgt ++ f) →
    lookupNode fs ppath = some (.symlink t) →
    lookupNode (autocleanLoop tgt false toRemove fs manifest).1 ppath =
      some (.symlink t) := by
  intro toRemove
  induction toRemove with
  | nil => intro fs manifest _ hv; exact hv
  | cons f rest ih =>
    intro fs manifest hnot hv
    rw [autocleanLoop_cons]
    rcases h₁ : autocleanRemove tgt false fs f with ⟨fs₁, acts₁, err⟩
    dsimp only
    rcases h₂ : autocleanLoop tgt false rest fs₁
        (if err = none then eraseManifest manifest f else manifest) with
      ⟨fs₂, manifest₂, acts₂, log₂⟩
    dsimp only
    have hv₁ : lookupNode fs₁ ppath = some (.symlink t) := by
      have := autocleanRemove_keeps_symlink tgt f ppath t fs
        (hnot f (List.mem_cons_self f rest)) hv
      rw [h₁] at this
      exact this
    have := ih fs₁ (if err = none then eraseManifest manifest f else manifest)
      (fun g hg => hnot g (List.mem_cons_of_mem f hg)) hv₁
    rw [h₂] at this
    exact this

/-- Membership in a sorted insertion. -/
theorem mem_insertSorted (p q : Path) :
    ∀ l : List Path, p ∈ insertSorted q l ↔ p = q ∨ p ∈ l := by
  intro l
  induction l with
  | nil => simp [insertSorted]
  | cons r rest ih =>
    unfold insertSorted
    by_cases h : pathLe q r
    · rw [if_pos h]
      simp [List.mem_cons]
    · rw [if_neg h]
      simp only [List.mem_cons, ih]
      tauto

/-- Sorting preserves membership. -/
theorem mem_sortPaths (p : Path) : ∀ l : List Path,
    p ∈ sortPaths l ↔ p ∈ l := by
  intro l
  induction l with
  | nil => simp [sortPaths]
  | cons q rest ih =>
    unfold sortPaths
    rw [mem_insertSorted]
    simp only [List.mem_cons, ih]

/-- The orphaned paths are exactly the tracked paths the pass did not
produce. -/
theorem mem_orphanedPaths (p : Path) (m next : List Path) :
    p ∈ orphanedPaths m next ↔ p ∈ m ∧ ¬ p ∈ next := by
  unfold orphanedPaths
  rw [mem_sortPaths]
  simp [List.mem_filter]

/-- Inserting paths that are already present is the identity. -/
theorem foldl_insertSet_id : ∀ (l m : List Path), (∀ p ∈ l, p ∈ m) →
    l.foldl insertSet m = m := by
  intro l
  induction l with
  | nil => intro m _; rfl
  | cons a rest ih =>
    intro m h
    rw [List.foldl_cons]
    have ha : insertSet m a = m := by
      unfold insertSet
      rw [if_pos (h a (List.mem_cons_self a rest))]
    rw [ha]
    exact ih m (fun p hp => h p (List.mem_cons_of_mem a hp))

/-- After a non-aborted pass of the retry engine over a real link
operation whose skips are all `ErrNotNeeded`-caused, the destination is
bound to a symlink to the source. -/
theorem processWithRetry_link_post (cfg : Config) (errorHandler : Handler)
    (rp tp rel : Path) :
    ∀ (fuel calls consults : Nat) (fs : Fs) (acts : List Action)
      (fs' : Fs) (acts' : List Action) (out : RetryOutcome),
    processWithRetry errorHandler
        (syncProcess (linkHandleFile cfg false) rp tp rel)
        fuel calls consults fs acts = some (fs', acts', out) →
    out.aborted = false →
    (out.skipped = true → out.reason.elim false isNotNeeded = true) →
    lookupNode fs' tp = some (.symlink rp) := by
  intro fuel
  induction fuel with
  | zero => intro _ _ _ _ _ _ _ h _ _; exact Option.noConfusion h
  | succ n ih =>
    intro calls consults fs acts fs' acts' out h hab hsk
    unfold processWithRetry at h
    have hsp : syncProcess (linkHandleFile cfg false) rp tp rel calls fs =
        ⟨(handleLink cfg false fs rp tp).fs,
         (handleLink cfg false fs rp tp).acts,
         ((handleLink cfg false fs rp tp).err).map
           (fun rawErr => wrapFileError rawErr rel)⟩ := rfl
    rw [hsp] at h
    cases herr : (handleLink cfg false fs rp tp).err with
    | none =>
      rw [herr] at h
      simp only [Option.map_none'] at h
      simp only [Option.some.injEq, Prod.mk.injEq] at h
      obtain ⟨h1, h2, h3⟩ := h
      rw [← h1]
      exact handleLink_success_linked cfg fs rp tp herr
    | some e =>
      rw [herr] at h
      simp only [Option.map_some'] at h
      obtain ⟨b, rfl, hbchar⟩ := handleLink_err_cases cfg fs rp tp e herr
      cases hnn : isNotNeeded (wrapFileError (.base b) rel) with
      | true =>
        rw [if_pos hnn] at h
        simp only [Option.some.injEq, Prod.mk.injEq] at h
        obtain ⟨h1, h2, h3⟩ := h
        have hb : b = .notNeeded := (isNotNeeded_wrap_base b rel).mp hnn
        obtain ⟨hfs, hlk⟩ := hbchar hb
        rw [← h1, hfs]
        exact hlk
      | false =>
        rw [if_neg (by simp [hnn])] at h
        cases hh : errorHandler consults (wrapFileError (.base b) rel) with
        | none =>
          rw [hh] at h
          dsimp only at h
          simp only [Option.some.injEq, Prod.mk.injEq] at h
          obtain ⟨h1, h2, h3⟩ := h
          rw [← h3] at hsk
          have hcontra := hsk rfl
          simp only [Option.elim] at hcontra
          rw [hnn] at hcontra
          exact Bool.noConfusion hcontra
        | some newErr =>
          rw [hh] at h
          dsimp only at h
          by_cases hne : newErr = .base .retry
          · rw [if_pos hne] at h
            exact ih _ _ _ _ _ _ _ h hab hsk
          · rw [if_neg hne] at h
            simp only [Option.some.injEq, Prod.mk.injEq] at h
            obtain ⟨h1, h2, h3⟩ := h
            rw [← h3] at hab
            exact Bool.noConfusion hab

/-- After a real link pass that did not abort and whose skip entries
all carry `ErrNotNeeded`-caused reasons, every listed file's
destination is bound to a symlink to its source. -/
theorem syncFiles_link_establishes (cfg : Config) (fuel : Nat)
    (errorHandler : Handler) :
    ∀ (l : List (Path × String)) (nm : List Path) (fs : Fs)
      (res : SyncResult),
    syncFiles cfg fuel errorHandler OperationLink (linkHandleFile cfg false)
      l nm fs = some res →
    res.overallErr = none →
    (∀ e ∈ res.log, e.operation = OperationSkip →
      e.reason.elim false isNotNeeded = true) →
    ∀ rel repo, (rel, repo) ∈ l →
      lookupNode res.fs (TargetPath cfg rel) =
        some (.symlink (RepoPath cfg repo rel)) := by
  intro l
  induction l with
  | nil =>
    intro nm fs res h hov hsk rel repo hmem
    simp at hmem
  | cons hd rest ih =>
    intro nm fs res h hov hsk rel repo hmem
    obtain ⟨rel₀, repo₀⟩ := hd
    rw [syncFiles_cons] at h
    cases hpr : processWithRetry errorHandler
        (syncProcess (linkHandleFile cfg false) (RepoPath cfg repo₀ rel₀)
          (TargetPath cfg rel₀) rel₀) fuel 0 0 fs [] with
    | none => rw [hpr] at h; exact Option.noConfusion h
    | some trip =>
      obtain ⟨fs', acts, out⟩ := trip
      rw [hpr] at h
      dsimp only at h
      cases hab : out.aborted with
      | true =>
        rw [hab, if_pos rfl] at h
        injection h with h'
        rw [← h'] at hov
        have hov' : out.reason = none := hov
        have hsome := processWithRetry_aborted_isSome errorHandler _ fuel 0 0
          fs [] fs' acts out hpr hab
        rw [hov'] at hsome
        exact Bool.noConfusion hsome
      | false =>
        rw [hab, if_neg (by decide)] at h
        cases hr : syncFiles cfg fuel errorHandler OperationLink
            (linkHandleFile cfg false) rest (insertSet nm rel₀) fs' with
        | none => rw [hr] at h; exact Option.noConfusion h
        | some res' =>
          rw [hr] at h
          injection h with h'
          rw [← h'] at hov hsk ⊢
          have hov' : res'.overallErr = none := hov
          have hsk0 : out.skipped = true →
              out.reason.elim false isNotNeeded = true := by
            intro hs
            have hop : (if out.skipped = true then OperationSkip
                else OperationLink) = OperationSkip := by
              simp [hs]
            exact hsk
              ⟨if out.skipped = true then OperationSkip else OperationLink,
                rel₀, repo₀, out.reason⟩
              (List.mem_cons_self _ _) hop
          have hlk0 : lookupNode fs' (TargetPath cfg rel₀) =
              some (.symlink (RepoPath cfg repo₀ rel₀)) :=
            processWithRetry_link_post cfg errorHandler
              (RepoPath cfg repo₀ rel₀) (TargetPath cfg rel₀) rel₀
              fuel 0 0 fs [] fs' acts out hpr hab hsk0
          rcases List.mem_cons.mp hmem with hhd | htl
          · rw [Prod.mk.injEq] at hhd
            obtain ⟨rfl, rfl⟩ := hhd
            have hpres := syncFiles_preserves cfg fuel errorHandler
              OperationLink (linkHandleFile cfg false)
              (fun a b => ∀ p v, lookupNode a p = some v →
                lookupNode b p = some v)
              (fun f p v hv => hv)
              (fun a b c h₁ h₂ p v hv => h₂ p v (h₁ p v hv))
              (fun i f r rp' p v hv =>
                handleLink_mono cfg false f (RepoPath cfg rp' r)
                  (TargetPath cfg r) p v hv)
              rest (insertSet nm rel) fs' res' hr
            exact hpres _ _ hlk0
          · exact ih (insertSet nm rel₀) fs' res' hr hov'
              (fun e he hop => hsk e (List.mem_cons_of_mem _ he) hop)
              rel repo htl

/-- A link operation on an already-linked destination only probes and
reports `ErrNotNeeded`. -/
theorem handleLink_already (cfg : Config) (dryRun : Bool) (fs : Fs)
    (s d : Path) (h : lookupNode fs d = some (.symlink s)) :
    handleLink cfg dryRun fs s d =
      ⟨fs, [.lstat d, .readlink d], some (.base .notNeeded)⟩ := by
  unfold handleLink isLinkedFile
  rw [h]
  simp

/-- Every entry the autoclean removal loop logs is a Remove entry. -/
theorem autocleanLoop_ops (tgt : Path) (dryRun : Bool) :
    ∀ (toRemove : List Path) (fs : Fs) (manifest : List Path),
    ∀ en ∈ (autocleanLoop tgt dryRun toRemove fs manifest).2.2.2,
      en.operation = OperationRemove := by
  intro toRemove
  induction toRemove with
  | nil => intro fs manifest en he; simp [autocleanLoop] at he
  | cons f rest ih =>
    intro fs manifest en he
    rw [autocleanLoop_cons] at he
    rcases h₁ : autocleanRemove tgt dryRun fs f with ⟨fs₁, acts₁, err⟩
    rw [h₁] at he
    dsimp only at he
    rcases h₂ : autocleanLoop tgt dryRun rest fs₁
        (if err = none then eraseManifest manifest f else manifest) with
      ⟨fs₂, manifest₂, acts₂, log₂⟩
    rw [h₂] at he
    dsimp only at he
    rcases List.mem_cons.mp he with rfl | htl
    · rfl
    · have := ih fs₁
        (if err = none then eraseManifest manifest f else manifest) en
      rw [h₂] at this
      exact this htl

/-- A link pass over files that are all already linked touches nothing:
it only probes, logs every file as Skipped with the wrapped
`ErrNotNeeded` reason, and collects the keys into the candidate
manifest. -/
theorem syncFiles_all_linked (cfg : Config) (fuel : Nat)
    (errorHandler : Handler) (hfuel : 0 < fuel) :
    ∀ (l : List (Path × String)) (nm : List Path) (fs : Fs),
    (∀ rel repo, (rel, repo) ∈ l →
      lookupNode fs (TargetPath cfg rel) =
        some (.symlink (RepoPath cfg repo rel))) →
    ∃ res, syncFiles cfg fuel errorHandler OperationLink
        (linkHandleFile cfg false) l nm fs = some res ∧
      res.fs = fs ∧
      res.overallErr = none ∧
      res.nextManifest = (l.map Prod.fst).foldl insertSet nm ∧
      (∀ a ∈ res.acts, a.isMutating = false) ∧
      res.log.length = l.length ∧
      (∀ e ∈ res.log, e.operation = OperationSkip ∧
        e.reason.elim false isNotNeeded = true) := by
  intro l
  induction l with
  | nil =>
    intro nm fs _
    exact ⟨⟨fs, nm, [], [], [], none⟩, rfl, rfl, rfl, rfl, by simp, rfl,
      by simp⟩
  | cons hd rest ih =>
    intro nm fs hlk
    obtain ⟨relative, repo⟩ := hd
    obtain ⟨fuel', rfl⟩ : ∃ fuel', fuel = fuel' + 1 := ⟨fuel - 1, by omega⟩
    have hl0 : lookupNode fs (TargetPath cfg relative) =
        some (.symlink (RepoPath cfg repo relative)) :=
      hlk relative repo (List.mem_cons_self _ _)
    have hstep : handleLink cfg false fs (RepoPath cfg repo relative)
        (TargetPath cfg relative) =
        ⟨fs, [.lstat (TargetPath cfg relative),
          .readlink (TargetPath cfg relative)],
          some (.base .notNeeded)⟩ :=
      handleLink_already cfg false fs _ _ hl0
    have hpr : processWithRetry errorHandler
        (syncProcess (linkHandleFile cfg false) (RepoPath cfg repo relative)
          (TargetPath cfg relative) relative) (fuel' + 1) 0 0 fs [] =
        some (fs, [.lstat (TargetPath cfg relative),
          .readlink (TargetPath cfg relative)],
          ⟨true, false,
            some (wrapFileError (.base .notNeeded) relative), 1, 0⟩) := by
      simp [processWithRetry, syncProcess, linkHandleFile, hstep,
        wrapFileError, errMessage, isNotNeeded]
    obtain ⟨res', hres', hfs', herr', hnm', hacts', hlog', hskips'⟩ :=
      ih (insertSet nm relative) fs
        (fun r rp hm => hlk r rp (List.mem_cons_of_mem _ hm))
    refine ⟨⟨res'.fs, res'.nextManifest,
      [.lstat (TargetPath cfg relative),
        .readlink (TargetPath cfg relative)] ++ res'.acts,
      (⟨OperationSkip, relative, repo,
        some (wrapFileError (.base .notNeeded) relative)⟩ : LogEntry) ::
        res'.log,
      relative :: res'.attempted, res'.overallErr⟩,
      ?_, ?_, ?_, ?_, ?_, ?_, ?_⟩
    · rw [syncFiles_cons, hpr]
      dsimp only
      simp only [Bool.false_eq_true, if_false]
      rw [hres']
      simp
    · exact hfs'
    · exact herr'
    · simpa using hnm'
    · intro a ha
      rw [List.mem_append] at ha
      rcases ha with hin | hin
      · rcases List.mem_cons.mp hin with rfl | hin'
        · rfl
        · rcases List.mem_cons.mp hin' with rfl | hin''
          · rfl
          · simp at hin''
      · exact hacts' a hin
    · simp [hlog']
    · intro e he
      rcases List.mem_cons.mp he with rfl | htl
      · exact ⟨rfl, by simp [wrapFileError, errMessage, isNotNeeded]⟩
      · exact hskips' e htl

/-- C4 (amended, link mode): after a successful full link sync (no
error, every skip already-up-to-date, every removal clean) whose repos
are unchanged — the state it leaves resolves to the same file list, as
in the standard layout where the sync writes only links into the
target — running the full link sync again performs zero mutating
filesystem operations, changes neither the filesystem nor the
configuration, attempts the same files, and logs every file as Skipped
with the already-up-to-date (`ErrNotNeeded`) reason.  Copy mode has no
such property — see the counterexample. -/
theorem linkAll_second_pass_skips (cfg : Config) (fuel : Nat)
    (errorHandler : Handler) (fs : Fs) (R1 : RunResult)
    (hfuel : 0 < fuel)
    (hrun1 : LinkAll cfg false fuel errorHandler fs = some R1)
    (herr1 : R1.err = none)
    (hsame : buildFileList R1.fs R1.cfg [([] : Path)] [] =
      buildFileList fs cfg [([] : Path)] [])
    (hskip : ∀ e ∈ R1.log, e.operation = OperationSkip →
      e.reason.elim false isNotNeeded = true)
    (hrm : ∀ e ∈ R1.log, e.operation = OperationRemove → e.reason = none) :
    ∃ R2, LinkAll R1.cfg false fuel errorHandler R1.fs = some R2 ∧
      R2.cfg = R1.cfg ∧
      R2.fs = R1.fs ∧
      (∀ a ∈ R2.acts, a.isMutating = false) ∧
      R2.err = none ∧
      R2.attempted = R1.attempted ∧
      (∀ e ∈ R2.log, e.operation = OperationSkip ∧
        e.reason.elim false isNotNeeded = true) := by
  rw [show LinkAll cfg false fuel errorHandler fs =
    runSync cfg false fuel errorHandler OperationLink
      (linkHandleFile cfg false) fs from rfl] at hrun1
  unfold runSync at hrun1
  cases hbf : buildFileList fs cfg [([] : Path)] [] with
  | error e =>
    rw [hbf] at hrun1
    dsimp only at hrun1
    injection hrun1 with h'
    rw [← h'] at herr1
    exact Option.noConfusion herr1
  | ok fl =>
    rw [hbf] at hrun1
    dsimp only at hrun1
    cases hsf : syncFiles cfg fuel errorHandler OperationLink
        (linkHandleFile cfg false) fl [] fs with
    | none => rw [hsf] at hrun1; exact Option.noConfusion hrun1
    | some res =>
      rw [hsf] at hrun1
      dsimp only at hrun1
      cases hov : res.overallErr with
      | some e =>
        simp only [hov, Option.isSome_some, if_true] at hrun1
        injection hrun1 with h'
        rw [← h'] at herr1
        exact Option.noConfusion herr1
      | none =>
        simp only [hov, Option.isSome_none, Bool.false_eq_true,
          if_false] at hrun1
        injection hrun1 with h'
        subst h'
        obtain ⟨hatt, hnm, hloglen⟩ := syncFiles_no_abort_spec cfg fuel
          errorHandler OperationLink (linkHandleFile cfg false) fl [] fs res
          hsf hov
        have hskipL : ∀ e ∈ res.log ++
            (autoclean cfg false res.fs res.nextManifest).log,
            e.operation = OperationSkip →
            e.reason.elim false isNotNeeded = true := hskip
        have hrmL : ∀ e ∈ res.log ++
            (autoclean cfg false res.fs res.nextManifest).log,
            e.operation = OperationRemove → e.reason = none := hrm
        have hlinks := syncFiles_link_establishes cfg fuel errorHandler fl
          [] fs res hsf hov
          (fun e he hop => hskipL e (List.mem_append_left _ he) hop)
        rcases hloop : autocleanLoop cfg.targetPath false
            (orphanedPaths cfg.manifest res.nextManifest) res.fs
            cfg.manifest with ⟨fsL, mL, aL, logL⟩
        have hA2 : autoclean cfg false res.fs res.nextManifest =
            ⟨fsL, res.nextManifest.foldl insertSet mL, aL, logL⟩ := by
          unfold autoclean
          rw [hloop]
        rw [hA2] at hskipL hrmL hsame ⊢
        dsimp only at hskipL hrmL hsame ⊢
        -- all autoclean log entries are clean removals
        have hops := autocleanLoop_ops cfg.targetPath false
          (orphanedPaths cfg.manifest res.nextManifest) res.fs cfg.manifest
        rw [hloop] at hops
        have hrmA : ∀ en ∈ logL, en.reason = none := fun en he =>
          hrmL en (List.mem_append_right _ he) (hops en he)
        -- the loop's manifest bookkeeping
        have hlspec := autocleanLoop_spec cfg.targetPath
          (orphanedPaths cfg.manifest res.nextManifest) res.fs cfg.manifest
        rw [hloop] at hlspec
        dsimp only at hlspec
        obtain ⟨hmap, -, hmemiff⟩ := hlspec
        -- the post-pass manifest tracks only produced keys
        have hsub1 : ∀ p ∈ mL, p ∈ res.nextManifest := by
          intro p hp
          obtain ⟨hpm, hcond⟩ := (hmemiff p).mp hp
          by_contra hpn
          have hporph : p ∈ orphanedPaths cfg.manifest res.nextManifest :=
            (mem_orphanedPaths p cfg.manifest res.nextManifest).mpr ⟨hpm, hpn⟩
          rw [← hmap] at hporph
          obtain ⟨en, hen, hrel⟩ := List.mem_map.mp hporph
          exact (hcond en hen hrel) (hrmA en hen)
        -- the links survive the autoclean
        have hlinksL : ∀ rel repo, (rel, repo) ∈ fl →
            lookupNode fsL (TargetPath cfg rel) =
              some (.symlink (RepoPath cfg repo rel)) := by
          intro rel repo hm
          have h₀ := hlinks rel repo hm
          have hnot : ∀ f ∈ orphanedPaths cfg.manifest res.nextManifest,
              ¬ TargetPath cfg rel = cfg.targetPath ++ f := by
            intro f hf heq
            have hrf : rel = f := append_cancel_left cfg.targetPath rel f heq
            apply ((mem_orphanedPaths f cfg.manifest res.nextManifest).mp
              hf).2
            rw [← hrf, hnm, mem_foldl_insertSet]
            exact Or.inr (List.mem_map.mpr ⟨(rel, repo), hm, rfl⟩)
          have := autocleanLoop_keeps_symlink cfg.targetPath
            (TargetPath cfg rel) (RepoPath cfg repo rel)
            (orphanedPaths cfg.manifest res.nextManifest) res.fs cfg.manifest
            hnot h₀
          rw [hloop] at this
          exact this
        -- the second pass
        set cfg1 : Config :=
          { cfg with manifest := res.nextManifest.foldl insertSet mL }
          with hcfg1
        have hbf2 : buildFileList fsL cfg1 [([] : Path)] [] = .ok fl :=
          hsame.trans hbf
        obtain ⟨res2, hres2, hfs2, herr2, hnm2, hacts2, hlog2, hskips2⟩ :=
          syncFiles_all_linked cfg1 fuel errorHandler hfuel fl [] fsL
            (fun rel repo hm => hlinksL rel repo hm)
        obtain ⟨hatt2, -, -⟩ := syncFiles_no_abort_spec cfg1 fuel
          errorHandler OperationLink (linkHandleFile cfg1 false) fl [] fsL
          res2 hres2 herr2
        -- the second autoclean has nothing to remove
        have horph2 : orphanedPaths cfg1.manifest res2.nextManifest = [] := by
          unfold orphanedPaths
          have hfilter : cfg1.manifest.filter
              (fun p => ¬ p ∈ res2.nextManifest) = [] := by
            rw [List.filter_eq_nil_iff]
            intro p hp
            have hp' : p ∈ res.nextManifest := by
              have hp'' : p ∈ res.nextManifest.foldl insertSet mL := hp
              rcases (mem_foldl_insertSet _ _ _).mp hp'' with h | h
              · exact hsub1 p h
              · exact h
            have : p ∈ res2.nextManifest := by
              rw [hnm2, ← hnm]
              exact hp'
            simp [this]
          rw [hfilter]
          rfl
        have hA3 : autoclean cfg1 false res2.fs res2.nextManifest =
            ⟨res2.fs, res2.nextManifest.foldl insertSet cfg1.manifest,
              [], []⟩ := by
          unfold autoclean
          rw [horph2]
          rfl
        have hfold2 : res2.nextManifest.foldl insertSet cfg1.manifest =
            cfg1.manifest := by
          apply foldl_insertSet_id
          intro p hp
          show p ∈ res.nextManifest.foldl insertSet mL
          apply (mem_foldl_insertSet _ _ _).mpr
          rw [hnm2, ← hnm] at hp
          exact Or.inr hp
        refine ⟨⟨{ cfg1 with manifest :=
            (res2.nextManifest.foldl insertSet cfg1.manifest) },
          res2.fs, res2.acts ++ [], res2.log ++ [], res2.attempted, none,
          true⟩, ?_, ?_, ?_, ?_, ?_, ?_, ?_⟩
        · rw [show LinkAll cfg1 false fuel errorHandler fsL =
            runSync cfg1 false fuel errorHandler OperationLink
              (linkHandleFile cfg1 false) fsL from rfl]
          unfold runSync
          rw [hbf2]
          dsimp only
          rw [hres2]
          dsimp only
          simp only [herr2, Option.isSome_none, Bool.false_eq_true, if_false]
          rw [hA3]
          rfl
        · show ({ cfg1 with manifest :=
            (res2.nextManifest.foldl insertSet cfg1.manifest) } : Config) =
            cfg1
          rw [hfold2]
        · exact hfs2
        · intro a ha
          dsimp only at ha
          rw [List.append_nil] at ha
          exact hacts2 a ha
        · rfl
        · show res2.attempted = res.attempted
          rw [hatt2, hatt]
        · intro e he
          dsimp only at he
          rw [List.append_nil] at he
          exact hskips2 e he

/-- Witness for C4: on the standard nested layout (`~/dotfiles` inside
`~`), the first link pass links `.fileA` and `.fileC`; the second pass
finds both linked, changes nothing, and logs both as
Skipped/already-up-to-date. -/
theorem linkAll_second_pass_skips_witness :
    ∃ R2, LinkAll exR1.cfg false 2 noErrorHandler exR1.fs = some R2 ∧
      R2.cfg = exR1.cfg ∧
      R2.fs = exR1.fs ∧
      (∀ a ∈ R2.acts, a.isMutating = false) ∧
      R2.err = none ∧
      R2.attempted = exR1.attempted ∧
      (∀ e ∈ R2.log, e.operation = OperationSkip ∧
        e.reason.elim false isNotNeeded = true) := by
  exact linkAll_second_pass_skips exCfg 2 noErrorHandler exFs exR1
    (by decide) (by decide) (by decide) (by decide)
    (by decide) (by decide)

/-- Counterexample for C4 (copy mode): after a successful full copy
sync, a second full copy sync does not log its files as Skipped with
the already-up-to-date reason — it logs them as Skipped with a "file
exists" error (there is no up-to-date check in `handleCopy`) — and it
still invokes the mutating `MkdirAll` primitive. -/
theorem copyAll_second_pass_counterexample :
    ((CopyAll exCfg false 2 acceptHandler exFs).map (fun r1 => r1.err)) =
      some none ∧
    ((CopyAll exCfg false 2 acceptHandler exFs).bind
        (fun r1 => CopyAll r1.cfg false 2 acceptHandler r1.fs)).map
      (fun r2 => (r2.log.map (fun e => (e.operation,
          e.reason.elim true isNotNeeded)),
        r2.acts.any (fun a => a.isMutating))) =
    some ([(OperationSkip, false), (OperationSkip, false)], true) := by
  exact ⟨by decide, by decide⟩

end Dfm
